import Mathlib

/-!
Page-granular barriers of an encrypted file mapping.

A shallow embedding of `EncryptedFileMapping::read_barrier`
(`src/realm/util/encrypted_file_mapping.hpp`, lines 162-194) and of the data it
works on, followed by the properties of the barrier protocol.

* `size_t` and `uintptr_t` values are natural numbers; `w` is the width of the
  machine word and every operation that can wrap is reduced modulo `2 ^ w`.
* `std::vector<bool>` is a `List Bool`; `operator[]` with an index past the end
  is undefined behaviour in C++ and ends the run with `Status.out_of_bounds`.
* `refresh_page` is declared in the header and defined elsewhere. `read_barrier`
  takes it as a parameter; a result `none` stands for a call that does not
  return because the mandatory decrypt ended the process (spec, 4.1 and 7).
* Calls that leave `read_barrier` (`lock.lock()`, `refresh_page`, the
  `Header_to_size` pointer) and every evaluation of `m_up_to_date_pages[idx]`
  are appended to a chronological trace together with the state they saw.
* The two `for` loops have no a-priori iteration bound once `last_idx` has
  wrapped, so the loop takes fuel: one unit per executed iteration.
* The members whose bodies are not in the header (`write_barrier`, `flush`,
  `sync`, `refresh_page`, the constructors, `AESCryptor`) are modelled from the
  specification where a property needs them; each such definition says so.
-/

namespace realm.util

/-! ## Machine words -/

/-- Unsigned addition on `w`-bit words. -/
def add_wrap (w a b : Nat) : Nat := (a + b) % 2 ^ w

/-- Unsigned subtraction on `w`-bit words: `a - b` modulo `2 ^ w`. -/
def sub_wrap (w a b : Nat) : Nat := (a % 2 ^ w + (2 ^ w - b % 2 ^ w)) % 2 ^ w

/-! ## Data model -/

/-- The pointer type `typedef size_t (*Header_to_size)(const char* addr)`: the
length of the record whose header starts at `addr`. The function reads the
memory at `addr`; `read_barrier` calls it at most once, in the window state the
trace records, so its result is a function of `addr` alone. -/
abbrev Header_to_size := Nat → Nat

/-- The bytes of one cipher block, plaintext or ciphertext. -/
abbrev Block := List Nat

/-- Modelled from the spec: `UniqueLock` of `realm/util/thread.hpp`, which is
not among the sources. Only the two members used by `read_barrier` are
modelled: the flag behind `holds_lock()` and `lock()`, which sets it. -/
structure UniqueLock where
  m_is_locked : Bool
deriving DecidableEq, Repr

/-- The member `UniqueLock::holds_lock()`. -/
def UniqueLock.holds_lock (l : UniqueLock) : Bool := l.m_is_locked

/-- The member `UniqueLock::lock()`. -/
def UniqueLock.lock (_l : UniqueLock) : UniqueLock := { m_is_locked := true }

/-- The members of `class EncryptedFileMapping` that hold the geometry of the
window and the two per-page bitmaps (lines 128-138 of the header), and
`memory`: the plaintext the pointer `m_addr` refers to, page by page, each page
as the list of its cipher blocks. -/
structure EncryptedFileMapping where
  m_page_shift : Nat
  m_blocks_per_page : Nat
  m_addr : Nat
  m_file_offset : Nat
  m_first_page : Nat
  m_page_count : Nat
  m_up_to_date_pages : List Bool
  m_dirty_pages : List Bool
  memory : List (List Block)
deriving DecidableEq, Repr

/-- One observable step of `read_barrier`, with the state it was made in. -/
inductive Event where
  /-- The expression `m_up_to_date_pages[idx]` was evaluated. -/
  | read_up_to_date (idx : Nat)
  /-- The call `lock.lock()`, made on the lock `pre`. -/
  | lock (pre : UniqueLock)
  /-- The call `refresh_page(idx)`, made on the window `pre`. -/
  | refresh_page (idx : Nat) (pre : EncryptedFileMapping)
  /-- The call `header_to_size(addr)`, made while the window was `pre`. -/
  | header_to_size (addr : Nat) (pre : EncryptedFileMapping)
deriving DecidableEq, Repr

/-- Everything `read_barrier` reads or writes: the window (`this`), the lock
passed by reference, and the trace of observable steps so far. -/
structure State where
  self : EncryptedFileMapping
  lock : UniqueLock
  trace : List Event
deriving DecidableEq, Repr

/-- How a run ended. -/
inductive Status where
  /-- The loop (or the function) ran to its end. -/
  | ok
  /-- A bitmap was indexed at `idx`, past its end: undefined behaviour. -/
  | out_of_bounds (idx : Nat)
  /-- The call `refresh_page(idx)` did not return: the process was ended. -/
  | fatal (idx : Nat)
  /-- The fuel given to a loop was used up before the loop condition failed. -/
  | out_of_fuel
deriving DecidableEq, Repr

/-- The result of a run: how it ended and the state it ended in. -/
structure Outcome where
  status : Status
  st : State
deriving DecidableEq, Repr

/-! ## `read_barrier` -/

/-- Line 166: `first_accessed_page = uintptr_t(addr) >> m_page_shift`. -/
def first_accessed_page (m : EncryptedFileMapping) (addr : Nat) : Nat :=
  addr >>> m.m_page_shift

/-- Lines 167 and 182:
`last_accessed_page = (uintptr_t(addr) + size - 1) >> m_page_shift`. -/
def last_accessed_page (w : Nat) (m : EncryptedFileMapping) (addr size : Nat) : Nat :=
  sub_wrap w (add_wrap w addr size) 1 >>> m.m_page_shift

/-- Line 169: `first_idx = first_accessed_page - m_first_page`. -/
def first_idx (w : Nat) (m : EncryptedFileMapping) (addr : Nat) : Nat :=
  sub_wrap w (first_accessed_page m addr) m.m_first_page

/-- Lines 170 and 184: `last_idx = last_accessed_page - m_first_page`. -/
def last_idx (w : Nat) (m : EncryptedFileMapping) (addr size : Nat) : Nat :=
  sub_wrap w (last_accessed_page w m addr size) m.m_first_page

/-- The statement `for (size_t idx = ...; idx <= last_idx; ++idx) { if
(!m_up_to_date_pages[idx]) { if (!lock.holds_lock()) lock.lock();
refresh_page(idx); } }` of lines 172-178, which lines 186-192 repeat verbatim.
The first argument after `last_idx` is the fuel, the second the current `idx`.
`refresh_page` is the private member of that name, whose body is not in the
header; `none` is a call that does not return. -/
def read_barrier_loop (w : Nat)
    (refresh_page : Nat → EncryptedFileMapping → Option EncryptedFileMapping)
    (last_idx : Nat) : Nat → Nat → State → Outcome
  | 0, idx, st =>
    if idx ≤ last_idx then ⟨Status.out_of_fuel, st⟩ else ⟨Status.ok, st⟩
  | fuel + 1, idx, st =>
    if idx ≤ last_idx then
      let st1 : State := { st with trace := st.trace ++ [Event.read_up_to_date idx] }
      match st1.self.m_up_to_date_pages[idx]? with
      | none => ⟨Status.out_of_bounds idx, st1⟩
      | some true =>
        read_barrier_loop w refresh_page last_idx fuel ((idx + 1) % 2 ^ w) st1
      | some false =>
        let st2 : State :=
          if st1.lock.holds_lock then st1
          else { st1 with lock := st1.lock.lock, trace := st1.trace ++ [Event.lock st1.lock] }
        let st3 : State :=
          { st2 with trace := st2.trace ++ [Event.refresh_page idx st2.self] }
        match refresh_page idx st3.self with
        | none => ⟨Status.fatal idx, st3⟩
        | some m =>
          read_barrier_loop w refresh_page last_idx fuel ((idx + 1) % 2 ^ w)
            { st3 with self := m }
    else ⟨Status.ok, st⟩

/-- The function `EncryptedFileMapping::read_barrier(addr, size, lock,
header_to_size)` of lines 162-194. `header_to_size = none` is the null
pointer. Each of the two loops may run for `fuel` iterations. -/
def read_barrier (w : Nat)
    (refresh_page : Nat → EncryptedFileMapping → Option EncryptedFileMapping)
    (fuel : Nat) (st : State) (addr size : Nat)
    (header_to_size : Option Header_to_size) : Outcome :=
  let first := first_idx w st.self addr
  let last := last_idx w st.self addr size
  let o1 := read_barrier_loop w refresh_page last fuel first st
  match o1.status with
  | Status.ok =>
    match header_to_size with
    | none => o1
    | some h =>
      let st1 : State :=
        { o1.st with trace := o1.st.trace ++ [Event.header_to_size addr o1.st.self] }
      let size2 := h addr
      let last2 := last_idx w st1.self addr size2
      read_barrier_loop w refresh_page last2 fuel first st1
  | _ => o1

/-! ## Assumptions on `refresh_page` -/

/-- The assumption "`refresh_page(i)` marks page `i` up to date and makes no
other page stale", for calls on a stale page of the bitmap: the call returns,
and the bitmap keeps its size. -/
structure RefreshMarksUpToDate
    (rp : Nat → EncryptedFileMapping → Option EncryptedFileMapping) : Prop where
  returns : ∀ i m, m.m_up_to_date_pages[i]? = some false → ∃ m2, rp i m = some m2
  length : ∀ i m m2, m.m_up_to_date_pages[i]? = some false → rp i m = some m2 →
    m2.m_up_to_date_pages.length = m.m_up_to_date_pages.length
  marks : ∀ i m m2, m.m_up_to_date_pages[i]? = some false → rp i m = some m2 →
    m2.m_up_to_date_pages[i]? = some true
  keeps : ∀ (i j : Nat) m m2, m.m_up_to_date_pages[i]? = some false → rp i m = some m2 →
    m.m_up_to_date_pages[j]? = some true → m2.m_up_to_date_pages[j]? = some true

/-- The assumption "`refresh_page(i)` changes only page `i`'s up-to-date bit",
for calls on a stale page of the bitmap. -/
def RefreshOnlySetsBit (rp : Nat → EncryptedFileMapping → Option EncryptedFileMapping) : Prop :=
  ∀ i m, m.m_up_to_date_pages[i]? = some false →
    ∃ m2, rp i m = some m2 ∧ m2.m_up_to_date_pages = m.m_up_to_date_pages.set i true

/-- The assumption that `refresh_page` leaves the geometry of the window
(`m_page_shift`, `m_first_page`, `m_page_count`) alone. -/
def RefreshKeepsGeometry (rp : Nat → EncryptedFileMapping → Option EncryptedFileMapping) :
    Prop :=
  ∀ i m m2, m.m_up_to_date_pages[i]? = some false → rp i m = some m2 →
    m2.m_page_shift = m.m_page_shift ∧ m2.m_first_page = m.m_first_page ∧
      m2.m_page_count = m.m_page_count

/-- The assumption that `refresh_page` leaves `m_dirty_pages` alone. -/
def RefreshKeepsDirty (rp : Nat → EncryptedFileMapping → Option EncryptedFileMapping) : Prop :=
  ∀ i m m2, m.m_up_to_date_pages[i]? = some false → rp i m = some m2 →
    m2.m_dirty_pages = m.m_dirty_pages

/-- The page-state invariant of the spec (section 3): a dirty page is always
up to date. -/
def DirtyUpToDate (m : EncryptedFileMapping) : Prop :=
  ∀ j : Nat, m.m_dirty_pages[j]? = some true → m.m_up_to_date_pages[j]? = some true

/-! ## Steps of the loop and projections of the trace -/

/-- The state after one iteration on a page that is up to date. -/
def fresh_step (idx : Nat) (st : State) : State :=
  { st with trace := st.trace ++ [Event.read_up_to_date idx] }

/-- The state in which `refresh_page(idx)` is called on a stale page. -/
def call_step (idx : Nat) (st : State) : State :=
  let st1 : State := { st with trace := st.trace ++ [Event.read_up_to_date idx] }
  let st2 : State :=
    if st1.lock.holds_lock then st1
    else { st1 with lock := st1.lock.lock, trace := st1.trace ++ [Event.lock st1.lock] }
  { st2 with trace := st2.trace ++ [Event.refresh_page idx st2.self] }

/-- The state after one iteration on a stale page, `m` being the window that
`refresh_page(idx)` left. -/
def stale_step (idx : Nat) (m : EncryptedFileMapping) (st : State) : State :=
  { call_step idx st with self := m }

/-- The state after the call of the header function at line 181. -/
def header_step (addr : Nat) (st : State) : State :=
  { st with trace := st.trace ++ [Event.header_to_size addr st.self] }

/-- The indices at which a trace evaluated `m_up_to_date_pages[idx]`. -/
def reads (tr : List Event) : List Nat :=
  tr.filterMap fun e => match e with
    | Event.read_up_to_date i => some i
    | _ => none

/-- The calls of `refresh_page` in a trace: page index and window state. -/
def refreshes (tr : List Event) : List (Nat × EncryptedFileMapping) :=
  tr.filterMap fun e => match e with
    | Event.refresh_page i pre => some (i, pre)
    | _ => none

/-- The calls of `lock.lock()` in a trace: the lock they were made on. -/
def locks (tr : List Event) : List UniqueLock :=
  tr.filterMap fun e => match e with
    | Event.lock pre => some pre
    | _ => none

/-- The calls of the `Header_to_size` pointer in a trace. -/
def header_calls (tr : List Event) : List (Nat × EncryptedFileMapping) :=
  tr.filterMap fun e => match e with
    | Event.header_to_size a pre => some (a, pre)
    | _ => none

/-! ## The members that are not in the header, modelled from the specification -/

/-- Modelled from the spec: the symmetric block cipher and the keyed
authentication inside the CryptoEngine (section 2; `AESCryptor` in the header,
whose member bodies are not among the sources). The spec names no algorithm, so
they are parameters: `encrypt key iv plaintext`, `decrypt key iv ciphertext`,
`tag key iv ciphertext block_index` (4.1: the tag covers the IV, the ciphertext
and the block index), `fresh_iv previous` (4.1: a fresh IV for every write) and
the number of bytes of a block. -/
structure Cipher where
  block_size : Nat
  encrypt : List Nat → Nat → Block → Block
  decrypt : List Nat → Nat → Block → Block
  tag : List Nat → Nat → Block → Nat → Nat
  fresh_iv : Nat → Nat

/-- Decryption under the key and IV of the encryption gives the plaintext back. -/
def Cipher.Correct (c : Cipher) : Prop :=
  ∀ key iv b, c.decrypt key iv (c.encrypt key iv b) = b

/-- Modelled from the spec: one entry of the IV/tag table (section 3), the
`struct iv_table` that line 44 of the header only declares. -/
structure iv_table where
  iv : Nat
  hmac : Nat
deriving DecidableEq, Repr

/-- Modelled from the spec: what the file holds for one cipher block (section
6): the ciphertext and the block's IV/tag entry; no entry means the block was
never written. -/
structure StoredBlock where
  entry : Option iv_table
  data : Block
deriving DecidableEq, Repr

/-- Modelled from the spec: the state of `class AESCryptor` (lines 46-85): the
key and the in-memory IV/tag table, one entry per block of the file. -/
structure AESCryptor where
  key : List Nat
  m_iv_buffer : List (Option iv_table)
deriving DecidableEq, Repr

/-- The `struct SharedFileInfo` of lines 89-95; `fd` is the content of the file
behind the descriptor and `mappings` holds the registered windows themselves. -/
structure SharedFileInfo where
  fd : List StoredBlock
  cryptor : AESCryptor
  mappings : List EncryptedFileMapping
deriving DecidableEq, Repr

/-- Modelled from the spec: the fresh IV of a write to block `blk` (4.1),
generated from the IV the table holds for the block, or from 0 for a block that
was never written. -/
def AESCryptor.next_iv (c : Cipher) (cr : AESCryptor) (blk : Nat) : Nat :=
  match cr.m_iv_buffer[blk]? with
  | some (some e) => c.fresh_iv e.iv
  | _ => c.fresh_iv 0

/-- Modelled from the spec: `AESCryptor::write` (4.1) for one block: a fresh
IV, the ciphertext, the tag over IV, ciphertext and block index; the in-memory
entry is updated and ciphertext and entry are persisted. -/
def AESCryptor.write_block (c : Cipher) (cr : AESCryptor) (fd : List StoredBlock)
    (blk : Nat) (src : Block) : AESCryptor × List StoredBlock :=
  let iv := AESCryptor.next_iv c cr blk
  let data := c.encrypt cr.key iv src
  let e : iv_table := { iv := iv, hmac := c.tag cr.key iv data blk }
  ({ cr with m_iv_buffer := cr.m_iv_buffer.set blk (some e) },
    fd.set blk { entry := some e, data := data })

/-- Modelled from the spec: `AESCryptor::write(fd, pos, src, size)` (4.1),
"for every covered block"; `pos` is the index of the first block. -/
def AESCryptor.write (c : Cipher) :
    AESCryptor → List StoredBlock → Nat → List Block → AESCryptor × List StoredBlock
  | cr, fd, _, [] => (cr, fd)
  | cr, fd, pos, b :: bs =>
    AESCryptor.write c (AESCryptor.write_block c cr fd pos b).1
      (AESCryptor.write_block c cr fd pos b).2 (pos + 1) bs

/-- Modelled from the spec: `AESCryptor::try_read` (4.1) for one block: a block
that was never written decrypts to zeros, a written block is authenticated and
decrypted, and a failed tag check is reported as `none`. -/
def AESCryptor.try_read_block (c : Cipher) (cr : AESCryptor) (fd : List StoredBlock)
    (blk : Nat) : Option Block :=
  match cr.m_iv_buffer[blk]? with
  | none => none
  | some none => some (List.replicate c.block_size 0)
  | some (some e) =>
    match fd[blk]? with
    | none => none
    | some sb =>
      if c.tag cr.key e.iv sb.data blk = e.hmac then some (c.decrypt cr.key e.iv sb.data)
      else none

/-- Modelled from the spec: `AESCryptor::try_read(fd, pos, dst, size)` (4.1):
every covered block is decrypted and authenticated; `pos` is the index of the
first block and the last argument the number of blocks. -/
def AESCryptor.try_read (c : Cipher) (cr : AESCryptor) (fd : List StoredBlock) :
    Nat → Nat → Option (List Block)
  | _, 0 => some []
  | pos, n + 1 =>
    match AESCryptor.try_read_block c cr fd pos with
    | none => none
    | some b =>
      match AESCryptor.try_read c cr fd (pos + 1) n with
      | none => none
      | some bs => some (b :: bs)

/-- Modelled from the spec: `AESCryptor::read` (4.1), the mandatory decrypt
path: as `try_read`, but a failed tag check is fatal; `none` is that end of the
process. -/
def AESCryptor.read (c : Cipher) (cr : AESCryptor) (fd : List StoredBlock)
    (pos n : Nat) : Option (List Block) :=
  AESCryptor.try_read c cr fd pos n

/-- Modelled from the spec: the constructor `SharedFileInfo(key, fd)` of line
94 (4.2): a CryptoEngine for the key, with the IV/tag table the file persists
(section 6), and no registered window. -/
def SharedFileInfo.create (key : List Nat) (fd : List StoredBlock) : SharedFileInfo :=
  { fd := fd, cryptor := { key := key, m_iv_buffer := fd.map fun sb => sb.entry },
    mappings := [] }

/-- Modelled from the spec: the page of the file that page `i` of the window
maps (section 3: a window is a file offset, an address range and a page count). -/
def EncryptedFileMapping.file_page (m : EncryptedFileMapping) (i : Nat) : Nat :=
  (m.m_file_offset >>> m.m_page_shift) + i

/-- Modelled from the spec: the index in the file of the first cipher block of
page `i` of the window (section 3: a page may span several cipher blocks). -/
def EncryptedFileMapping.first_block (m : EncryptedFileMapping) (i : Nat) : Nat :=
  m.file_page i * m.m_blocks_per_page

/-- Modelled from the spec: the constructor of `EncryptedFileMapping` (line
100; 4.3 Construction): bitmaps for `page_count` pages, all stale, and the new
window is registered with the shared file state. `memory` is what the mapped
memory holds at that moment. -/
def EncryptedFileMapping.create (file : SharedFileInfo) (page_shift blocks_per_page : Nat)
    (file_offset addr size : Nat) (memory : List (List Block)) : SharedFileInfo :=
  { file with mappings := file.mappings ++
      [{ m_page_shift := page_shift, m_blocks_per_page := blocks_per_page, m_addr := addr,
         m_file_offset := file_offset, m_first_page := addr >>> page_shift,
         m_page_count := size >>> page_shift,
         m_up_to_date_pages := List.replicate (size >>> page_shift) false,
         m_dirty_pages := List.replicate (size >>> page_shift) false,
         memory := memory }] }

/-- Modelled from the spec: the private member `mark_up_to_date(i)` of line 149
(4.3: "mark `Clean`"). -/
def mark_up_to_date (i : Nat) (m : EncryptedFileMapping) : EncryptedFileMapping :=
  { m with m_up_to_date_pages := m.m_up_to_date_pages.set i true }

/-- Modelled from the spec: the test inside `copy_up_to_date_page` (4.3): the
plaintext a window holds for page `fp` of the file, when that page lies in the
window and is up to date there. -/
def up_to_date_page (s : EncryptedFileMapping) (fp : Nat) : Option (List Block) :=
  if s.m_file_offset >>> s.m_page_shift ≤ fp then
    match s.m_up_to_date_pages[fp - (s.m_file_offset >>> s.m_page_shift)]? with
    | some true => s.memory[fp - (s.m_file_offset >>> s.m_page_shift)]?
    | _ => none
  else none

/-- Modelled from the spec: the search inside `copy_up_to_date_page` (4.3): the
first registered window other than number `self_index` that holds fresh
plaintext for page `fp` of the file; the third argument is the number of the
window at the head of the list. -/
def sibling_copy (self_index fp : Nat) : Nat → List EncryptedFileMapping → Option (List Block)
  | _, [] => none
  | n, s :: rest =>
    if n = self_index then sibling_copy self_index fp (n + 1) rest
    else
      match up_to_date_page s fp with
      | some p => some p
      | none => sibling_copy self_index fp (n + 1) rest

/-- Modelled from the spec: the private member `copy_up_to_date_page(i)` of
line 152 (4.3: "byte-copy from a sibling window that already holds fresh
plaintext for the same file offsets"); `none` when there is no such sibling. -/
def copy_up_to_date_page (file : SharedFileInfo) (self_index i : Nat)
    (m : EncryptedFileMapping) : Option EncryptedFileMapping :=
  match sibling_copy self_index (m.file_page i) 0 file.mappings with
  | some p => some { m with memory := m.memory.set i p }
  | none => none

/-- Modelled from the spec: the private member `refresh_page(i)` of line 153
(4.3, `read_barrier`): copy from a sibling window if one holds fresh plaintext,
otherwise decrypt through the CryptoEngine on the mandatory path, then mark the
page up to date. `self_index` is the number of this window in the registry. -/
def refresh_page (c : Cipher) (file : SharedFileInfo) (self_index i : Nat)
    (m : EncryptedFileMapping) : Option EncryptedFileMapping :=
  match copy_up_to_date_page file self_index i m with
  | some m2 => some (mark_up_to_date i m2)
  | none =>
    match AESCryptor.read c file.cryptor file.fd (m.first_block i) m.m_blocks_per_page with
    | none => none
    | some p => some (mark_up_to_date i { m with memory := m.memory.set i p })

/-- Modelled from the spec: `SharedFileState.notify_dirty` (4.2) on one
sibling window: the pages that map the file pages `first_fp .. last_fp` are
marked `up_to_date = false`. -/
def notify_dirty (first_fp last_fp : Nat) (s : EncryptedFileMapping) : EncryptedFileMapping :=
  { s with m_up_to_date_pages := s.m_up_to_date_pages.mapIdx fun j u =>
      if first_fp ≤ s.file_page j ∧ s.file_page j ≤ last_fp then false else u }

/-- Modelled from the spec: the bitmap update of `write_barrier` (4.3): the
pages `first .. last` of the window are marked dirty. -/
def mark_dirty (first last : Nat) (m : EncryptedFileMapping) : EncryptedFileMapping :=
  { m with m_dirty_pages := m.m_dirty_pages.mapIdx fun j d =>
      if first ≤ j ∧ j ≤ last then true else d }

/-- Modelled from the spec: `EncryptedFileMapping::write_barrier(addr, size)`
of line 119 (4.3): every covered page of window number `self_index` is marked
dirty, its up-to-date bit is kept, and every other registered window is
notified for the corresponding range of the file. The covered pages are
computed as in `read_barrier`. -/
def write_barrier (w : Nat) (file : SharedFileInfo) (self_index addr size : Nat) :
    SharedFileInfo :=
  match file.mappings[self_index]? with
  | none => file
  | some m =>
    let first := first_idx w m addr
    let last := last_idx w m addr size
    { file with mappings := file.mappings.mapIdx fun n s =>
        if n = self_index then mark_dirty first last s
        else notify_dirty (m.file_page first) (m.file_page last) s }

/-- Modelled from the spec: the loop of `flush` (4.3): the pages of the list
that are dirty in `m` are written through the CryptoEngine, in the order of the
list. -/
def flush_pages (c : Cipher) (m : EncryptedFileMapping) :
    List Nat → AESCryptor × List StoredBlock → AESCryptor × List StoredBlock
  | [], s => s
  | i :: rest, s =>
    match m.m_dirty_pages[i]?, m.memory[i]? with
    | some true, some p =>
      flush_pages c m rest (AESCryptor.write c s.1 s.2 (m.first_block i) p)
    | _, _ => flush_pages c m rest s

/-- Modelled from the spec: `EncryptedFileMapping::flush()` of line 106 (4.3):
each dirty page of window number `self_index` is encrypted, authenticated and
persisted through the CryptoEngine and then marked clean. -/
def flush (c : Cipher) (file : SharedFileInfo) (self_index : Nat) : SharedFileInfo :=
  match file.mappings[self_index]? with
  | none => file
  | some m =>
    { fd := (flush_pages c m (List.range m.m_page_count) (file.cryptor, file.fd)).2,
      cryptor := (flush_pages c m (List.range m.m_page_count) (file.cryptor, file.fd)).1,
      mappings := file.mappings.set self_index
        { m with m_dirty_pages := m.m_dirty_pages.map fun _ => false } }

/-- Modelled from the spec: `EncryptedFileMapping::sync()` of line 109 (4.3):
`flush()` followed by a durability barrier of the storage, which leaves the
content of the file as it is. -/
def sync (c : Cipher) (file : SharedFileInfo) (self_index : Nat) : SharedFileInfo :=
  flush c file self_index

/-- Modelled from the spec: `refresh_page(i)` reduced to its effect on the
bitmap, `mark_up_to_date(i)` (4.3: "mark `Clean`"), always returning. It stands
for `refresh_page` in the concrete runs where the plaintext plays no role. -/
def refresh_bit (i : Nat) (m : EncryptedFileMapping) : Option EncryptedFileMapping :=
  some (mark_up_to_date i m)

/-! ## Concrete windows -/

/-- A window of four pages of 4096 bytes whose first page is page 16 of the
address space; pages 0 and 3 are up to date and page 3 is dirty. -/
def window4 : EncryptedFileMapping :=
  { m_page_shift := 12, m_blocks_per_page := 1, m_addr := 65536, m_file_offset := 0,
    m_first_page := 16, m_page_count := 4,
    m_up_to_date_pages := [true, false, false, true],
    m_dirty_pages := [false, false, false, true],
    memory := [[[1]], [[2]], [[3]], [[4]]] }

/-- The window `window4` with a lock that is not held and an empty trace. -/
def state4 : State := { self := window4, lock := ⟨false⟩, trace := [] }

/-- A header function that reports a record of 12000 bytes. -/
def header12000 : Header_to_size := fun _ => 12000

/-! ## Notions used in the statements about the file -/

/-- Block `blk` of the file holds an authentic encryption of `b` under `key`. -/
def holds (c : Cipher) (key : List Nat) (fd : List StoredBlock) (blk : Nat) (b : Block) : Prop :=
  ∃ e data, fd[blk]? = some { entry := some e, data := data } ∧
    c.tag key e.iv data blk = e.hmac ∧ c.decrypt key e.iv data = b

/-- The window after page `i` received the plaintext `p` and was marked. -/
def refreshed (i : Nat) (p : List Block) (m : EncryptedFileMapping) : EncryptedFileMapping :=
  mark_up_to_date i { m with memory := m.memory.set i p }

/-- The file behind `fd`, opened again with `key`, and a fresh window with the
geometry of `W` registered on it; `mem0` is what the new mapping holds before
any barrier. -/
def reopen (key : List Nat) (fd : List StoredBlock) (W : EncryptedFileMapping)
    (mem0 : List (List Block)) : SharedFileInfo :=
  EncryptedFileMapping.create (SharedFileInfo.create key fd) W.m_page_shift
    W.m_blocks_per_page W.m_file_offset W.m_addr (W.m_page_count <<< W.m_page_shift) mem0

/-- The window that `reopen` registers. -/
def fresh_window (W : EncryptedFileMapping) (mem0 : List (List Block)) :
    EncryptedFileMapping :=
  { m_page_shift := W.m_page_shift, m_blocks_per_page := W.m_blocks_per_page,
    m_addr := W.m_addr, m_file_offset := W.m_file_offset,
    m_first_page := W.m_addr >>> W.m_page_shift, m_page_count := W.m_page_count,
    m_up_to_date_pages := List.replicate W.m_page_count false,
    m_dirty_pages := List.replicate W.m_page_count false, memory := mem0 }

/-- The file after window number `a` called `write_barrier` and, when
`flushed`, `flush`. -/
def after_write (c : Cipher) (w : Nat) (file : SharedFileInfo) (a addr size : Nat)
    (flushed : Bool) : SharedFileInfo :=
  if flushed then flush c (write_barrier w file a addr size) a
  else write_barrier w file a addr size

/-- A toy cipher for the concrete scenarios, the spec fixing no algorithm: every
byte is xor-ed with a pad derived from key and IV, the tag is a checksum of key,
IV, ciphertext and block index, and the next IV is the previous one plus 1. -/
def xor_cipher : Cipher :=
  { block_size := 4096,
    encrypt := fun key iv b => b.map fun x => x ^^^ ((key.sum + iv) % 256),
    decrypt := fun key iv b => b.map fun x => x ^^^ ((key.sum + iv) % 256),
    tag := fun key iv data blk => (key.sum + iv + data.sum + blk) % 65521,
    fresh_iv := fun iv => iv + 1 }

/-- The 32-byte all-zero key of the concrete scenario. -/
def zero_key : List Nat := List.replicate 32 0

/-- One page of one 4096-byte block, every byte `0xAA`. -/
def page_aa : List Block := [List.replicate 4096 170]

/-- A window of one page at address 65536 over offset 0 of the file, holding
`page_aa`. -/
def writer_window : EncryptedFileMapping :=
  { m_page_shift := 12, m_blocks_per_page := 1, m_addr := 65536, m_file_offset := 0,
    m_first_page := 16, m_page_count := 1,
    m_up_to_date_pages := [true], m_dirty_pages := [false], memory := page_aa :: [] }

/-- A second window of one page, at address 131072, over the same page of the
file, holding zeros. -/
def reader_window : EncryptedFileMapping :=
  { m_page_shift := 12, m_blocks_per_page := 1, m_addr := 131072, m_file_offset := 0,
    m_first_page := 32, m_page_count := 1,
    m_up_to_date_pages := [true], m_dirty_pages := [false],
    memory := [List.replicate 4096 0] :: [] }

/-- A file of one block that was never written, opened with the zero key, with
`writer_window` registered. -/
def one_block_file : SharedFileInfo :=
  { fd := [{ entry := none, data := [] }],
    cryptor := { key := zero_key, m_iv_buffer := [none] },
    mappings := [writer_window] }

/-- The same file with `writer_window` and `reader_window` registered. -/
def shared_file : SharedFileInfo :=
  { fd := [{ entry := none, data := [] }],
    cryptor := { key := zero_key, m_iv_buffer := [none] },
    mappings := [writer_window, reader_window] }

/-! ## Word arithmetic -/

theorem sub_wrap_of_le {w a b : Nat} (hab : b ≤ a) (ha : a < 2 ^ w) :
    sub_wrap w a b = a - b := by
  unfold sub_wrap
  have hb : b < 2 ^ w := lt_of_le_of_lt hab ha
  rw [Nat.mod_eq_of_lt ha, Nat.mod_eq_of_lt hb]
  have : a + (2 ^ w - b) = (a - b) + 2 ^ w := by omega
  rw [this, Nat.add_mod_right]
  exact Nat.mod_eq_of_lt (by omega)

theorem sub_wrap_pred_self {w a : Nat} (ha : 1 ≤ a) (ha2 : a < 2 ^ w) :
    sub_wrap w (a - 1) a = 2 ^ w - 1 := by
  unfold sub_wrap
  rw [Nat.mod_eq_of_lt (by omega : a - 1 < 2 ^ w), Nat.mod_eq_of_lt ha2]
  have : a - 1 + (2 ^ w - a) = 2 ^ w - 1 := by omega
  rw [this]
  exact Nat.mod_eq_of_lt (by have := Nat.two_pow_pos w; omega)

theorem shiftRight_mono (s : Nat) {a b : Nat} (h : a ≤ b) : a >>> s ≤ b >>> s := by
  simp only [Nat.shiftRight_eq_div_pow]
  exact Nat.div_le_div_right h

theorem shiftRight_le_self (a s : Nat) : a >>> s ≤ a := by
  rw [Nat.shiftRight_eq_div_pow]
  exact Nat.div_le_self a (2 ^ s)

theorem range_succ_of_le {idx last : Nat} (h : idx ≤ last) :
    List.range' idx (last + 1 - idx) = idx :: List.range' (idx + 1) (last + 1 - (idx + 1)) := by
  have : last + 1 - idx = (last + 1 - (idx + 1)) + 1 := by omega
  rw [this, List.range'_succ]

/-! ## One iteration of the loop -/

theorem fresh_step_self (idx : Nat) (st : State) : (fresh_step idx st).self = st.self := rfl

theorem fresh_step_lock (idx : Nat) (st : State) : (fresh_step idx st).lock = st.lock := rfl

theorem fresh_step_trace (idx : Nat) (st : State) :
    (fresh_step idx st).trace = st.trace ++ [Event.read_up_to_date idx] := rfl

theorem call_step_self (idx : Nat) (st : State) : (call_step idx st).self = st.self := by
  unfold call_step
  by_cases hl : st.lock.holds_lock <;> simp [hl]

theorem call_step_lock (idx : Nat) (st : State) : (call_step idx st).lock = ⟨true⟩ := by
  unfold call_step
  by_cases hl : st.lock.holds_lock
  · have : st.lock = ⟨true⟩ := by
      cases hs : st.lock with
      | mk b => simp [UniqueLock.holds_lock, hs] at hl; simp [hl]
    simp [this, UniqueLock.holds_lock]
  · simp [hl, UniqueLock.lock]

theorem call_step_trace (idx : Nat) (st : State) :
    (call_step idx st).trace =
      st.trace ++ (Event.read_up_to_date idx ::
        ((if st.lock.holds_lock then [] else [Event.lock st.lock]) ++
          [Event.refresh_page idx st.self])) := by
  unfold call_step
  by_cases hl : st.lock.holds_lock <;> simp [hl]

theorem stale_step_self (idx : Nat) (m : EncryptedFileMapping) (st : State) :
    (stale_step idx m st).self = m := rfl

theorem stale_step_lock (idx : Nat) (m : EncryptedFileMapping) (st : State) :
    (stale_step idx m st).lock = ⟨true⟩ := call_step_lock idx st

theorem stale_step_trace (idx : Nat) (m : EncryptedFileMapping) (st : State) :
    (stale_step idx m st).trace =
      st.trace ++ (Event.read_up_to_date idx ::
        ((if st.lock.holds_lock then [] else [Event.lock st.lock]) ++
          [Event.refresh_page idx st.self])) := call_step_trace idx st

theorem read_barrier_loop_exit (w : Nat)
    (rp : Nat → EncryptedFileMapping → Option EncryptedFileMapping) (last fuel idx : Nat)
    (st : State) (h : ¬ idx ≤ last) :
    read_barrier_loop w rp last fuel idx st = ⟨Status.ok, st⟩ := by
  cases fuel <;> simp [read_barrier_loop, h]

theorem read_barrier_loop_fresh (w : Nat)
    (rp : Nat → EncryptedFileMapping → Option EncryptedFileMapping) (last fuel idx : Nat)
    (st : State) (h : idx ≤ last) (hb : st.self.m_up_to_date_pages[idx]? = some true) :
    read_barrier_loop w rp last (fuel + 1) idx st =
      read_barrier_loop w rp last fuel ((idx + 1) % 2 ^ w) (fresh_step idx st) := by
  simp [read_barrier_loop, h, hb, fresh_step]

theorem read_barrier_loop_oob (w : Nat)
    (rp : Nat → EncryptedFileMapping → Option EncryptedFileMapping) (last fuel idx : Nat)
    (st : State) (h : idx ≤ last) (hb : st.self.m_up_to_date_pages[idx]? = none) :
    read_barrier_loop w rp last (fuel + 1) idx st =
      ⟨Status.out_of_bounds idx, fresh_step idx st⟩ := by
  simp [read_barrier_loop, h, hb, fresh_step]

theorem read_barrier_loop_stale (w : Nat)
    (rp : Nat → EncryptedFileMapping → Option EncryptedFileMapping) (last fuel idx : Nat)
    (st : State) (m : EncryptedFileMapping) (h : idx ≤ last)
    (hb : st.self.m_up_to_date_pages[idx]? = some false) (hr : rp idx st.self = some m) :
    read_barrier_loop w rp last (fuel + 1) idx st =
      read_barrier_loop w rp last fuel ((idx + 1) % 2 ^ w) (stale_step idx m st) := by
  by_cases hl : st.lock.holds_lock <;>
    simp [read_barrier_loop, h, hb, hr, hl, stale_step, call_step]

theorem read_barrier_loop_fatal (w : Nat)
    (rp : Nat → EncryptedFileMapping → Option EncryptedFileMapping) (last fuel idx : Nat)
    (st : State) (h : idx ≤ last)
    (hb : st.self.m_up_to_date_pages[idx]? = some false) (hr : rp idx st.self = none) :
    read_barrier_loop w rp last (fuel + 1) idx st =
      ⟨Status.fatal idx, call_step idx st⟩ := by
  by_cases hl : st.lock.holds_lock <;>
    simp [read_barrier_loop, h, hb, hr, hl, call_step]

/-! ## Loops that stay inside the bitmap -/

/-- A loop over a range inside the bitmap returns and leaves the range up to
date, when on the window states that satisfy `I` every call of `refresh_page`
on a stale page between `lo` and `last` returns, keeps `I` and the size of the
bitmap, marks its page and makes no page stale. -/
theorem loop_total_on {w : Nat} {rp : Nat → EncryptedFileMapping → Option EncryptedFileMapping}
    (I : EncryptedFileMapping → Prop) (lo last : Nat) (hw : last + 1 < 2 ^ w)
    (hstep : ∀ i m, I m → lo ≤ i → i ≤ last → m.m_up_to_date_pages[i]? = some false →
      ∃ m2, rp i m = some m2 ∧ I m2 ∧
        m2.m_up_to_date_pages.length = m.m_up_to_date_pages.length ∧
        m2.m_up_to_date_pages[i]? = some true ∧
        ∀ j : Nat, m.m_up_to_date_pages[j]? = some true →
          m2.m_up_to_date_pages[j]? = some true) :
    ∀ (fuel idx : Nat) (st : State), lo ≤ idx → I st.self →
      last < st.self.m_up_to_date_pages.length → last + 1 - idx ≤ fuel →
      (read_barrier_loop w rp last fuel idx st).status = Status.ok ∧
      I (read_barrier_loop w rp last fuel idx st).st.self ∧
      (read_barrier_loop w rp last fuel idx st).st.self.m_up_to_date_pages.length
        = st.self.m_up_to_date_pages.length ∧
      (∀ j : Nat, idx ≤ j → j ≤ last →
        (read_barrier_loop w rp last fuel idx st).st.self.m_up_to_date_pages[j]? = some true) ∧
      (∀ j : Nat, st.self.m_up_to_date_pages[j]? = some true →
        (read_barrier_loop w rp last fuel idx st).st.self.m_up_to_date_pages[j]? = some true) := by
  intro fuel
  induction fuel with
  | zero =>
    intro idx st _ hI _ hf
    have h : ¬ idx ≤ last := by omega
    rw [read_barrier_loop_exit w rp last 0 idx st h]
    exact ⟨rfl, hI, rfl, fun j h1 h2 => absurd (le_trans h1 h2) h, fun j hj => hj⟩
  | succ fuel ih =>
    intro idx st hlo hI hlen hf
    by_cases h : idx ≤ last
    · have hmod : (idx + 1) % 2 ^ w = idx + 1 := Nat.mod_eq_of_lt (by omega)
      cases hb : st.self.m_up_to_date_pages[idx]? with
      | none =>
        rw [List.getElem?_eq_none_iff] at hb
        omega
      | some b =>
        cases b with
        | true =>
          rw [read_barrier_loop_fresh w rp last fuel idx st h hb, hmod]
          obtain ⟨h1, hI2, h2, h3, h4⟩ := ih (idx + 1) (fresh_step idx st) (by omega) hI hlen
            (by omega)
          refine ⟨h1, hI2, h2, ?_, h4⟩
          intro j hj1 hj2
          by_cases hji : j = idx
          · subst hji; exact h4 j hb
          · exact h3 j (by omega) hj2
        | false =>
          obtain ⟨m2, hr, hIm, hl, hmark, hkeep⟩ := hstep idx st.self hI hlo h hb
          rw [read_barrier_loop_stale w rp last fuel idx st m2 h hb hr, hmod]
          obtain ⟨h1, hI2, h2, h3, h4⟩ := ih (idx + 1) (stale_step idx m2 st) (by omega) hIm
            (by rw [stale_step_self, hl]; exact hlen) (by omega)
          rw [stale_step_self] at h2 h4
          refine ⟨h1, hI2, by rw [h2, hl], ?_, ?_⟩
          · intro j hj1 hj2
            by_cases hji : j = idx
            · subst hji; exact h4 j hmark
            · exact h3 j (by omega) hj2
          · intro j hj
            exact h4 j (hkeep j hj)
    · rw [read_barrier_loop_exit w rp last _ idx st h]
      exact ⟨rfl, hI, rfl, fun j h1 h2 => absurd (le_trans h1 h2) h, fun j hj => hj⟩

/-- A loop that ends with `Status.ok` leaves every page of its range up to
date, and no loop makes a page stale. -/
theorem loop_returned {w : Nat} {rp : Nat → EncryptedFileMapping → Option EncryptedFileMapping}
    (R : RefreshMarksUpToDate rp) (last : Nat) :
    ∀ (fuel idx : Nat) (st : State),
      (∀ j : Nat, st.self.m_up_to_date_pages[j]? = some true →
        (read_barrier_loop w rp last fuel idx st).st.self.m_up_to_date_pages[j]? = some true) ∧
      ((read_barrier_loop w rp last fuel idx st).status = Status.ok →
        ∀ j : Nat, idx ≤ j → j ≤ last →
          (read_barrier_loop w rp last fuel idx st).st.self.m_up_to_date_pages[j]?
            = some true) := by
  intro fuel
  induction fuel with
  | zero =>
    intro idx st
    by_cases h : idx ≤ last
    · simp [read_barrier_loop, h]
    · rw [read_barrier_loop_exit w rp last 0 idx st h]
      exact ⟨fun j hj => hj, fun _ j h1 h2 => absurd (le_trans h1 h2) h⟩
  | succ fuel ih =>
    intro idx st
    by_cases h : idx ≤ last
    · have hnext : (idx + 1) % 2 ^ w ≤ idx + 1 := Nat.mod_le _ _
      cases hb : st.self.m_up_to_date_pages[idx]? with
      | none =>
        rw [read_barrier_loop_oob w rp last fuel idx st h hb]
        exact ⟨fun j hj => hj, fun hok => by cases hok⟩
      | some b =>
        cases b with
        | true =>
          rw [read_barrier_loop_fresh w rp last fuel idx st h hb]
          obtain ⟨k1, k2⟩ := ih ((idx + 1) % 2 ^ w) (fresh_step idx st)
          refine ⟨k1, fun hok j hj1 hj2 => ?_⟩
          by_cases hji : j = idx
          · subst hji; exact k1 j hb
          · exact k2 hok j (by omega) hj2
        | false =>
          cases hr : rp idx st.self with
          | none =>
            rw [read_barrier_loop_fatal w rp last fuel idx st h hb hr]
            refine ⟨fun j hj => ?_, fun hok => by cases hok⟩
            rw [call_step_self]
            exact hj
          | some m2 =>
            rw [read_barrier_loop_stale w rp last fuel idx st m2 h hb hr]
            obtain ⟨k1, k2⟩ := ih ((idx + 1) % 2 ^ w) (stale_step idx m2 st)
            rw [stale_step_self] at k1
            refine ⟨fun j hj => k1 j (R.keeps idx j st.self m2 hb hr hj),
              fun hok j hj1 hj2 => ?_⟩
            by_cases hji : j = idx
            · subst hji; exact k1 j (R.marks j st.self m2 hb hr)
            · exact k2 hok j (by omega) hj2
    · rw [read_barrier_loop_exit w rp last _ idx st h]
      exact ⟨fun j hj => hj, fun _ j h1 h2 => absurd (le_trans h1 h2) h⟩

theorem loop_total {w : Nat} {rp : Nat → EncryptedFileMapping → Option EncryptedFileMapping}
    (R : RefreshMarksUpToDate rp) (last : Nat) (hw : last + 1 < 2 ^ w)
    (fuel idx : Nat) (st : State) (hlen : last < st.self.m_up_to_date_pages.length)
    (hfuel : last + 1 - idx ≤ fuel) :
    (read_barrier_loop w rp last fuel idx st).status = Status.ok ∧
    (read_barrier_loop w rp last fuel idx st).st.self.m_up_to_date_pages.length
      = st.self.m_up_to_date_pages.length ∧
    (∀ j : Nat, idx ≤ j → j ≤ last →
      (read_barrier_loop w rp last fuel idx st).st.self.m_up_to_date_pages[j]? = some true) ∧
    (∀ j : Nat, st.self.m_up_to_date_pages[j]? = some true →
      (read_barrier_loop w rp last fuel idx st).st.self.m_up_to_date_pages[j]? = some true) := by
  have hstep : ∀ i m, True → 0 ≤ i → i ≤ last → m.m_up_to_date_pages[i]? = some false →
      ∃ m2, rp i m = some m2 ∧ True ∧
        m2.m_up_to_date_pages.length = m.m_up_to_date_pages.length ∧
        m2.m_up_to_date_pages[i]? = some true ∧
        ∀ j : Nat, m.m_up_to_date_pages[j]? = some true →
          m2.m_up_to_date_pages[j]? = some true := by
    intro i m _ _ _ hb
    obtain ⟨m2, hr⟩ := R.returns i m hb
    exact ⟨m2, hr, trivial, R.length i m m2 hb hr, R.marks i m m2 hb hr,
      fun j hj => R.keeps i j m m2 hb hr hj⟩
  obtain ⟨h1, _, h2, h3, h4⟩ := loop_total_on (fun _ => True) 0 last hw hstep fuel idx st
    (Nat.zero_le _) trivial hlen hfuel
  exact ⟨h1, h2, h3, h4⟩

/-- A property of the state that every step keeps holds when the loop ends,
however it ends. -/
theorem loop_invariant {w : Nat} {rp : Nat → EncryptedFileMapping → Option EncryptedFileMapping}
    (P : State → Prop) (last : Nat)
    (hfresh : ∀ st idx, P st → P (fresh_step idx st))
    (hcall : ∀ st idx, P st → st.self.m_up_to_date_pages[idx]? = some false →
      P (call_step idx st))
    (hstale : ∀ st idx m, P st → st.self.m_up_to_date_pages[idx]? = some false →
      rp idx st.self = some m → P (stale_step idx m st)) :
    ∀ (fuel idx : Nat) (st : State), P st → P (read_barrier_loop w rp last fuel idx st).st := by
  intro fuel
  induction fuel with
  | zero =>
    intro idx st hP
    by_cases h : idx ≤ last <;> simpa [read_barrier_loop, h] using hP
  | succ fuel ih =>
    intro idx st hP
    by_cases h : idx ≤ last
    · cases hb : st.self.m_up_to_date_pages[idx]? with
      | none =>
        rw [read_barrier_loop_oob w rp last fuel idx st h hb]
        exact hfresh st idx hP
      | some b =>
        cases b with
        | true =>
          rw [read_barrier_loop_fresh w rp last fuel idx st h hb]
          exact ih _ _ (hfresh st idx hP)
        | false =>
          cases hr : rp idx st.self with
          | none =>
            rw [read_barrier_loop_fatal w rp last fuel idx st h hb hr]
            exact hcall st idx hP hb
          | some m =>
            rw [read_barrier_loop_stale w rp last fuel idx st m h hb hr]
            exact ih _ _ (hstale st idx m hP hb hr)
    · rw [read_barrier_loop_exit w rp last _ idx st h]
      exact hP

/-! ## What the loop appends to the trace -/

theorem loop_trace {w : Nat} {rp : Nat → EncryptedFileMapping → Option EncryptedFileMapping}
    (R : RefreshMarksUpToDate rp) (last : Nat) (hw : last + 1 < 2 ^ w) :
    ∀ (fuel idx : Nat) (st : State), last < st.self.m_up_to_date_pages.length →
      last + 1 - idx ≤ fuel →
      ∃ evs, (read_barrier_loop w rp last fuel idx st).st.trace = st.trace ++ evs ∧
        reads evs = List.range' idx (last + 1 - idx) ∧
        (∀ p ∈ refreshes evs, idx ≤ p.1 ∧ p.1 ≤ last) ∧
        (st.lock.holds_lock = true → locks evs = []) ∧
        (st.lock.holds_lock = false →
          (∃ j : Nat, idx ≤ j ∧ j ≤ last ∧ st.self.m_up_to_date_pages[j]? = some false) →
          locks evs = [st.lock]) ∧
        ((∀ j : Nat, idx ≤ j → j ≤ last → st.self.m_up_to_date_pages[j]? = some true) →
          locks evs = [] ∧ refreshes evs = [] ∧
          (read_barrier_loop w rp last fuel idx st).st.self = st.self ∧
          (read_barrier_loop w rp last fuel idx st).st.lock = st.lock) := by
  intro fuel
  induction fuel with
  | zero =>
    intro idx st _ hf
    have h : ¬ idx ≤ last := by omega
    rw [read_barrier_loop_exit w rp last 0 idx st h]
    refine ⟨[], by simp, ?_, by simp [refreshes], by simp [locks], ?_, by simp [locks, refreshes]⟩
    · have : last + 1 - idx = 0 := by omega
      simp [reads, this]
    · rintro _ ⟨j, h1, h2, _⟩
      omega
  | succ fuel ih =>
    intro idx st hlen hf
    by_cases h : idx ≤ last
    · have hmod : (idx + 1) % 2 ^ w = idx + 1 := Nat.mod_eq_of_lt (by omega)
      cases hb : st.self.m_up_to_date_pages[idx]? with
      | none =>
        rw [List.getElem?_eq_none_iff] at hb
        omega
      | some b =>
        cases b with
        | true =>
          rw [read_barrier_loop_fresh w rp last fuel idx st h hb, hmod]
          obtain ⟨evs, h1, h2, h3, h4, h5, h6⟩ :=
            ih (idx + 1) (fresh_step idx st) hlen (by omega)
          rw [fresh_step_trace] at h1
          rw [fresh_step_lock, fresh_step_self] at h5
          rw [fresh_step_lock] at h4
          rw [fresh_step_self, fresh_step_lock] at h6
          refine ⟨Event.read_up_to_date idx :: evs, by simpa using h1, ?_, ?_, ?_, ?_, ?_⟩
          · rw [range_succ_of_le h, ← h2]
            simp [reads]
          · intro p hp
            have hp2 : p ∈ refreshes evs := by simpa [refreshes] using hp
            have := h3 p hp2
            omega
          · intro hl
            have := h4 hl
            simpa [locks] using this
          · rintro hl ⟨j, hj1, hj2, hj3⟩
            have hne : j ≠ idx := by
              rintro rfl
              rw [hb] at hj3
              cases hj3
            have := h5 hl ⟨j, by omega, hj2, hj3⟩
            simpa [locks] using this
          · intro hall
            obtain ⟨a, b, c, d⟩ := h6 (fun j hj1 hj2 => hall j (by omega) hj2)
            refine ⟨by simpa [locks] using a, by simpa [refreshes] using b, c, d⟩
        | false =>
          obtain ⟨m2, hr⟩ := R.returns idx st.self hb
          rw [read_barrier_loop_stale w rp last fuel idx st m2 h hb hr, hmod]
          have hl := R.length idx st.self m2 hb hr
          obtain ⟨evs, h1, h2, h3, h4, _, _⟩ := ih (idx + 1) (stale_step idx m2 st)
            (by rw [stale_step_self, hl]; exact hlen) (by omega)
          rw [stale_step_trace] at h1
          rw [stale_step_lock] at h4
          have hlk : locks evs = [] := h4 rfl
          refine ⟨_, by rw [h1, List.append_assoc], ?_, ?_, ?_, ?_, ?_⟩
          · rw [range_succ_of_le h, ← h2]
            by_cases hh : st.lock.holds_lock <;> simp [reads, hh]
          · intro p hp
            have hp2 : p = (idx, st.self) ∨ p ∈ refreshes evs := by
              by_cases hh : st.lock.holds_lock <;> simpa [refreshes, hh] using hp
            rcases hp2 with rfl | hp2
            · exact ⟨le_refl _, h⟩
            · have := h3 p hp2
              omega
          · intro hh
            simpa [locks, hh] using hlk
          · intro hh _
            have hh2 : ¬ st.lock.holds_lock = true := by simp [hh]
            simpa [locks, hh2] using hlk
          · intro hall
            have := hall idx (le_refl _) h
            rw [hb] at this
            cases this
    · rw [read_barrier_loop_exit w rp last _ idx st h]
      refine ⟨[], by simp, ?_, by simp [refreshes], by simp [locks], ?_, by simp [locks, refreshes]⟩
      · have : last + 1 - idx = 0 := by omega
        simp [reads, this]
      · rintro _ ⟨j, h1, h2, _⟩
        omega

/-- What any loop appends to the trace, however it ends: no call of the header
function, `lock.lock()` only on a lock that is not held, `refresh_page` only
on a page whose bit is false at the time of the call. -/
theorem loop_events (w : Nat) (rp : Nat → EncryptedFileMapping → Option EncryptedFileMapping)
    (last fuel idx : Nat) (st : State) :
    ∃ evs, (read_barrier_loop w rp last fuel idx st).st.trace = st.trace ++ evs ∧
      header_calls evs = [] ∧
      (∀ l ∈ locks evs, l.holds_lock = false) ∧
      (∀ p ∈ refreshes evs, p.2.m_up_to_date_pages[p.1]? = some false) := by
  have hcall : ∀ (s : State) (i : Nat), (∃ evs, s.trace = st.trace ++ evs ∧
      header_calls evs = [] ∧
      (∀ l ∈ locks evs, l.holds_lock = false) ∧
      (∀ p ∈ refreshes evs, p.2.m_up_to_date_pages[p.1]? = some false)) →
      s.self.m_up_to_date_pages[i]? = some false →
      ∃ evs, (call_step i s).trace = st.trace ++ evs ∧
      header_calls evs = [] ∧
      (∀ l ∈ locks evs, l.holds_lock = false) ∧
      (∀ p ∈ refreshes evs, p.2.m_up_to_date_pages[p.1]? = some false) := by
    rintro s i ⟨evs, h1, h2, h3, h4⟩ hb
    refine ⟨evs ++ (Event.read_up_to_date i ::
        ((if s.lock.holds_lock then [] else [Event.lock s.lock]) ++
          [Event.refresh_page i s.self])), ?_, ?_, ?_, ?_⟩
    · rw [call_step_trace, h1, List.append_assoc]
    · by_cases hh : s.lock.holds_lock <;> simpa [header_calls, hh] using h2
    · intro l hl
      by_cases hh : s.lock.holds_lock
      · exact h3 l (by simpa [locks, hh] using hl)
      · have : l ∈ locks evs ∨ l = s.lock := by simpa [locks, hh] using hl
        rcases this with h | rfl
        · exact h3 l h
        · simpa using hh
    · intro p hp
      have : p ∈ refreshes evs ∨ p = (i, s.self) := by
        by_cases hh : s.lock.holds_lock <;> simpa [refreshes, hh] using hp
      rcases this with h | rfl
      · exact h4 p h
      · exact hb
  refine loop_invariant (fun s => ∃ evs, s.trace = st.trace ++ evs ∧
      header_calls evs = [] ∧
      (∀ l ∈ locks evs, l.holds_lock = false) ∧
      (∀ p ∈ refreshes evs, p.2.m_up_to_date_pages[p.1]? = some false)) last ?_ hcall ?_
    fuel idx st ⟨[], by simp, by simp [header_calls], by simp [locks], by simp [refreshes]⟩
  · rintro s i ⟨evs, h1, h2, h3, h4⟩
    refine ⟨evs ++ [Event.read_up_to_date i], ?_, ?_, ?_, ?_⟩
    · rw [fresh_step_trace, h1, List.append_assoc]
    · simpa [header_calls] using h2
    · intro l hl
      exact h3 l (by simpa [locks] using hl)
    · intro p hp
      exact h4 p (by simpa [refreshes] using hp)
  · intro s i m hP hb _
    exact hcall s i hP hb

/-- The geometry read by the second pass is the one read by the first. -/
theorem loop_geometry {w : Nat} {rp : Nat → EncryptedFileMapping → Option EncryptedFileMapping}
    (G : RefreshKeepsGeometry rp) (last fuel idx : Nat) (st : State) :
    (read_barrier_loop w rp last fuel idx st).st.self.m_page_shift = st.self.m_page_shift ∧
    (read_barrier_loop w rp last fuel idx st).st.self.m_first_page = st.self.m_first_page ∧
    (read_barrier_loop w rp last fuel idx st).st.self.m_page_count = st.self.m_page_count := by
  refine loop_invariant (fun s => s.self.m_page_shift = st.self.m_page_shift ∧
      s.self.m_first_page = st.self.m_first_page ∧
      s.self.m_page_count = st.self.m_page_count) last ?_ ?_ ?_ fuel idx st ⟨rfl, rfl, rfl⟩
  · intro s i h
    exact h
  · intro s i h _
    rw [call_step_self]
    exact h
  · rintro s i m ⟨h1, h2, h3⟩ hb hr
    obtain ⟨g1, g2, g3⟩ := G i s.self m hb hr
    rw [stale_step_self]
    exact ⟨g1.trans h1, g2.trans h2, g3.trans h3⟩

/-- The dirty bitmap and the invariant "dirty implies up to date" through any
loop, with the window state seen by each call of `refresh_page`. -/
theorem loop_dirty {w : Nat} {rp : Nat → EncryptedFileMapping → Option EncryptedFileMapping}
    (R : RefreshMarksUpToDate rp) (D : RefreshKeepsDirty rp)
    (last fuel idx : Nat) (st : State) (hinv : DirtyUpToDate st.self) :
    DirtyUpToDate (read_barrier_loop w rp last fuel idx st).st.self ∧
    (read_barrier_loop w rp last fuel idx st).st.self.m_dirty_pages = st.self.m_dirty_pages ∧
    ∃ evs, (read_barrier_loop w rp last fuel idx st).st.trace = st.trace ++ evs ∧
      ∀ p ∈ refreshes evs, DirtyUpToDate p.2 ∧ p.2.m_dirty_pages = st.self.m_dirty_pages := by
  have hcall : ∀ (s : State) (i : Nat), (∃ evs, s.trace = st.trace ++ evs ∧
        ∀ p ∈ refreshes evs, DirtyUpToDate p.2 ∧ p.2.m_dirty_pages = st.self.m_dirty_pages) →
      DirtyUpToDate s.self → s.self.m_dirty_pages = st.self.m_dirty_pages →
      ∃ evs, (call_step i s).trace = st.trace ++ evs ∧
        ∀ p ∈ refreshes evs, DirtyUpToDate p.2 ∧ p.2.m_dirty_pages = st.self.m_dirty_pages := by
    rintro s i ⟨evs, h3, h4⟩ h1 h2
    refine ⟨evs ++ (Event.read_up_to_date i ::
        ((if s.lock.holds_lock then [] else [Event.lock s.lock]) ++
          [Event.refresh_page i s.self])), ?_, ?_⟩
    · rw [call_step_trace, h3, List.append_assoc]
    · intro p hp
      have : p ∈ refreshes evs ∨ p = (i, s.self) := by
        by_cases hh : s.lock.holds_lock <;> simpa [refreshes, hh] using hp
      rcases this with h | rfl
      · exact h4 p h
      · exact ⟨h1, h2⟩
  refine loop_invariant (fun s => DirtyUpToDate s.self ∧
      s.self.m_dirty_pages = st.self.m_dirty_pages ∧
      ∃ evs, s.trace = st.trace ++ evs ∧
        ∀ p ∈ refreshes evs, DirtyUpToDate p.2 ∧ p.2.m_dirty_pages = st.self.m_dirty_pages)
    last ?_ ?_ ?_ fuel idx st ⟨hinv, rfl, [], by simp, by simp [refreshes]⟩
  · rintro s i ⟨h1, h2, evs, h3, h4⟩
    refine ⟨h1, h2, evs ++ [Event.read_up_to_date i], ?_, ?_⟩
    · rw [fresh_step_trace, h3, List.append_assoc]
    · intro p hp
      exact h4 p (by simpa [refreshes] using hp)
  · rintro s i ⟨h1, h2, hev⟩ _
    rw [call_step_self]
    exact ⟨h1, h2, hcall s i hev h1 h2⟩
  · rintro s i m ⟨h1, h2, hev⟩ hb hr
    rw [stale_step_self]
    refine ⟨?_, (D i s.self m hb hr).trans h2, hcall s i hev h1 h2⟩
    intro j hj
    rw [D i s.self m hb hr] at hj
    exact R.keeps i j s.self m hb hr (h1 j hj)

theorem not_dirty_of_stale {m : EncryptedFileMapping} (hinv : DirtyUpToDate m) {i : Nat}
    (hb : m.m_up_to_date_pages[i]? = some false) : m.m_dirty_pages[i]? ≠ some true := by
  intro hd
  have := hinv i hd
  rw [hb] at this
  cases this

theorem loop_refresh_safe {w : Nat}
    {rp : Nat → EncryptedFileMapping → Option EncryptedFileMapping}
    (R : RefreshMarksUpToDate rp) (D : RefreshKeepsDirty rp)
    (last fuel idx : Nat) (st : State) (hinv : DirtyUpToDate st.self) :
    DirtyUpToDate (read_barrier_loop w rp last fuel idx st).st.self ∧
    (read_barrier_loop w rp last fuel idx st).st.self.m_dirty_pages = st.self.m_dirty_pages ∧
    ∃ evs, (read_barrier_loop w rp last fuel idx st).st.trace = st.trace ++ evs ∧
      ∀ p ∈ refreshes evs, p.2.m_up_to_date_pages[p.1]? = some false ∧
        p.2.m_dirty_pages[p.1]? ≠ some true := by
  obtain ⟨h1, h2, evs, h3, h4⟩ := loop_dirty (w := w) R D last fuel idx st hinv
  obtain ⟨evs2, k1, _, _, k4⟩ := loop_events w rp last fuel idx st
  have : evs2 = evs := List.append_cancel_left (k1.symm.trans h3)
  subst this
  exact ⟨h1, h2, evs2, h3, fun p hp => ⟨k4 p hp, not_dirty_of_stale (h4 p hp).1 (k4 p hp)⟩⟩

theorem loop_trace_events {w : Nat}
    {rp : Nat → EncryptedFileMapping → Option EncryptedFileMapping}
    (R : RefreshMarksUpToDate rp) (last : Nat) (hw : last + 1 < 2 ^ w)
    (fuel idx : Nat) (st : State) (hlen : last < st.self.m_up_to_date_pages.length)
    (hfuel : last + 1 - idx ≤ fuel) :
    ∃ evs, (read_barrier_loop w rp last fuel idx st).st.trace = st.trace ++ evs ∧
      reads evs = List.range' idx (last + 1 - idx) ∧ header_calls evs = [] ∧
      (∀ p ∈ refreshes evs, idx ≤ p.1 ∧ p.1 ≤ last) := by
  obtain ⟨evs, h1, h2, h3, _⟩ := loop_trace R last hw fuel idx st hlen hfuel
  obtain ⟨evs2, k1, k2, _⟩ := loop_events w rp last fuel idx st
  have : evs2 = evs := List.append_cancel_left (k1.symm.trans h1)
  subst this
  exact ⟨evs2, h1, h2, k2, h3⟩

theorem loop_refresh_exact {w : Nat}
    {rp : Nat → EncryptedFileMapping → Option EncryptedFileMapping}
    (O : RefreshOnlySetsBit rp) (last : Nat) (hw : last + 1 < 2 ^ w) :
    ∀ (fuel idx : Nat) (st : State), last < st.self.m_up_to_date_pages.length →
      last + 1 - idx ≤ fuel →
      ∃ evs, (read_barrier_loop w rp last fuel idx st).st.trace = st.trace ++ evs ∧
        (refreshes evs).map Prod.fst = (List.range' idx (last + 1 - idx)).filter
          (fun j => decide (st.self.m_up_to_date_pages[j]? = some false)) := by
  intro fuel
  induction fuel with
  | zero =>
    intro idx st _ hf
    have h : ¬ idx ≤ last := by omega
    rw [read_barrier_loop_exit w rp last 0 idx st h]
    have : last + 1 - idx = 0 := by omega
    exact ⟨[], by simp, by simp [refreshes, this]⟩
  | succ fuel ih =>
    intro idx st hlen hf
    by_cases h : idx ≤ last
    · have hmod : (idx + 1) % 2 ^ w = idx + 1 := Nat.mod_eq_of_lt (by omega)
      cases hb : st.self.m_up_to_date_pages[idx]? with
      | none =>
        rw [List.getElem?_eq_none_iff] at hb
        omega
      | some b =>
        cases b with
        | true =>
          rw [read_barrier_loop_fresh w rp last fuel idx st h hb, hmod]
          obtain ⟨evs, h1, h2⟩ := ih (idx + 1) (fresh_step idx st) hlen (by omega)
          rw [fresh_step_trace] at h1
          rw [fresh_step_self] at h2
          refine ⟨Event.read_up_to_date idx :: evs, by simpa using h1, ?_⟩
          rw [range_succ_of_le h, List.filter_cons, ← h2]
          simp [refreshes, hb]
        | false =>
          obtain ⟨m2, hr, hO⟩ := O idx st.self hb
          rw [read_barrier_loop_stale w rp last fuel idx st m2 h hb hr, hmod]
          obtain ⟨evs, h1, h2⟩ := ih (idx + 1) (stale_step idx m2 st)
            (by rw [stale_step_self, hO]; simpa using hlen) (by omega)
          rw [stale_step_trace] at h1
          rw [stale_step_self, hO] at h2
          refine ⟨_, by rw [h1, List.append_assoc], ?_⟩
          have hfilter : (List.range' (idx + 1) (last + 1 - (idx + 1))).filter
              (fun j => decide ((st.self.m_up_to_date_pages.set idx true)[j]? = some false))
              = (List.range' (idx + 1) (last + 1 - (idx + 1))).filter
              (fun j => decide (st.self.m_up_to_date_pages[j]? = some false)) := by
            apply List.filter_congr
            intro j hj
            have hj2 : idx + 1 ≤ j := (List.mem_range'_1.mp hj).1
            have hne : idx ≠ j := by omega
            simp [List.getElem?_set, hne]
          rw [range_succ_of_le h, List.filter_cons, ← hfilter, ← h2]
          by_cases hh : st.lock.holds_lock <;> simp [refreshes, hb, hh]
    · rw [read_barrier_loop_exit w rp last _ idx st h]
      have : last + 1 - idx = 0 := by omega
      exact ⟨[], by simp, by simp [refreshes, this]⟩

theorem loop_runs_off_the_end {w : Nat}
    {rp : Nat → EncryptedFileMapping → Option EncryptedFileMapping}
    (R : RefreshMarksUpToDate rp) (last n : Nat) (hn : n < 2 ^ w) (hlast : n ≤ last) :
    ∀ (fuel idx : Nat) (st : State), st.self.m_up_to_date_pages.length = n → idx ≤ n →
      n - idx < fuel →
      (read_barrier_loop w rp last fuel idx st).status = Status.out_of_bounds n ∧
      ∃ tr, (read_barrier_loop w rp last fuel idx st).st.trace
        = tr ++ [Event.read_up_to_date n] := by
  intro fuel
  induction fuel with
  | zero =>
    intro idx st _ _ hf
    omega
  | succ fuel ih =>
    intro idx st hlen hidx hf
    have h : idx ≤ last := le_trans hidx hlast
    cases hb : st.self.m_up_to_date_pages[idx]? with
    | none =>
      rw [List.getElem?_eq_none_iff] at hb
      have : idx = n := by omega
      subst this
      rw [read_barrier_loop_oob w rp last fuel idx st h (List.getElem?_eq_none_iff.mpr hb)]
      exact ⟨rfl, st.trace, rfl⟩
    | some b =>
      have hlt : idx < n := by
        by_contra hcon
        rw [List.getElem?_eq_none (by omega)] at hb
        cases hb
      have hmod : (idx + 1) % 2 ^ w = idx + 1 := Nat.mod_eq_of_lt (by omega)
      cases b with
      | true =>
        rw [read_barrier_loop_fresh w rp last fuel idx st h hb, hmod]
        exact ih (idx + 1) (fresh_step idx st) hlen (by omega) (by omega)
      | false =>
        obtain ⟨m2, hr⟩ := R.returns idx st.self hb
        rw [read_barrier_loop_stale w rp last fuel idx st m2 h hb hr, hmod]
        exact ih (idx + 1) (stale_step idx m2 st)
          (by rw [stale_step_self, R.length idx st.self m2 hb hr]; exact hlen)
          (by omega) (by omega)

/-! ## The assumptions hold for a `refresh_page` that only sets the bit -/

theorem marks_of_only_sets_bit {rp : Nat → EncryptedFileMapping → Option EncryptedFileMapping}
    (O : RefreshOnlySetsBit rp) : RefreshMarksUpToDate rp where
  returns := by
    intro i m hb
    obtain ⟨m2, hr, _⟩ := O i m hb
    exact ⟨m2, hr⟩
  length := by
    intro i m m2 hb hr
    obtain ⟨m3, hr3, h3⟩ := O i m hb
    rw [hr] at hr3
    cases hr3
    rw [h3]
    simp
  marks := by
    intro i m m2 hb hr
    obtain ⟨m3, hr3, h3⟩ := O i m hb
    rw [hr] at hr3
    cases hr3
    rw [h3]
    have hi : i < m.m_up_to_date_pages.length := by
      by_contra hcon
      rw [List.getElem?_eq_none (by omega)] at hb
      cases hb
    simp [List.getElem?_set, hi]
  keeps := by
    intro i j m m2 hb hr hj
    obtain ⟨m3, hr3, h3⟩ := O i m hb
    rw [hr] at hr3
    cases hr3
    rw [h3]
    by_cases hij : i = j
    · subst hij
      rw [hb] at hj
      cases hj
    · simp [List.getElem?_set, hij, hj]

theorem refresh_bit_only_sets_bit : RefreshOnlySetsBit refresh_bit :=
  fun _ m _ => ⟨mark_up_to_date _ m, rfl, rfl⟩

theorem refresh_bit_marks : RefreshMarksUpToDate refresh_bit :=
  marks_of_only_sets_bit refresh_bit_only_sets_bit

theorem refresh_bit_keeps_geometry : RefreshKeepsGeometry refresh_bit := by
  intro i m m2 _ hr
  cases hr
  exact ⟨rfl, rfl, rfl⟩

theorem refresh_bit_keeps_dirty : RefreshKeepsDirty refresh_bit := by
  intro i m m2 _ hr
  cases hr
  rfl

/-! ## `read_barrier` in terms of its loops -/

theorem read_barrier_none (w : Nat)
    (rp : Nat → EncryptedFileMapping → Option EncryptedFileMapping)
    (fuel : Nat) (st : State) (addr size : Nat) :
    read_barrier w rp fuel st addr size none =
      read_barrier_loop w rp (last_idx w st.self addr size) fuel (first_idx w st.self addr) st := by
  unfold read_barrier
  simp only
  split <;> rfl

theorem read_barrier_some (w : Nat)
    (rp : Nat → EncryptedFileMapping → Option EncryptedFileMapping)
    (fuel : Nat) (st : State) (addr size : Nat) (h : Header_to_size)
    (hok : (read_barrier w rp fuel st addr size none).status = Status.ok) :
    read_barrier w rp fuel st addr size (some h) =
      read_barrier_loop w rp
        (last_idx w (read_barrier w rp fuel st addr size none).st.self addr (h addr)) fuel
        (first_idx w st.self addr)
        (header_step addr (read_barrier w rp fuel st addr size none).st) := by
  rw [read_barrier_none] at hok ⊢
  unfold read_barrier
  simp only [hok, header_step]

theorem read_barrier_some_of_fault (w : Nat)
    (rp : Nat → EncryptedFileMapping → Option EncryptedFileMapping)
    (fuel : Nat) (st : State) (addr size : Nat) (h : Header_to_size)
    (hok : (read_barrier w rp fuel st addr size none).status ≠ Status.ok) :
    read_barrier w rp fuel st addr size (some h) = read_barrier w rp fuel st addr size none := by
  rw [read_barrier_none] at hok ⊢
  unfold read_barrier
  simp only

theorem last_idx_congr (w : Nat) {m m2 : EncryptedFileMapping} (addr size : Nat)
    (h1 : m2.m_page_shift = m.m_page_shift) (h2 : m2.m_first_page = m.m_first_page) :
    last_idx w m2 addr size = last_idx w m addr size := by
  simp [last_idx, last_accessed_page, h1, h2]

/-! ## Postcondition of the first pass -/

theorem first_pass_total (w : Nat)
    (rp : Nat → EncryptedFileMapping → Option EncryptedFileMapping) (R : RefreshMarksUpToDate rp)
    (fuel : Nat) (st : State) (addr size : Nat)
    (hlen : st.self.m_up_to_date_pages.length = st.self.m_page_count)
    (hcount : st.self.m_page_count < 2 ^ w)
    (hlast : last_idx w st.self addr size < st.self.m_page_count)
    (hfuel : last_idx w st.self addr size + 1 - first_idx w st.self addr ≤ fuel) :
    (read_barrier w rp fuel st addr size none).status = Status.ok ∧
    ∀ j : Nat, first_idx w st.self addr ≤ j → j ≤ last_idx w st.self addr size →
      (read_barrier w rp fuel st addr size none).st.self.m_up_to_date_pages[j]? = some true := by
  rw [read_barrier_none]
  have hw : last_idx w st.self addr size + 1 < 2 ^ w := by omega
  obtain ⟨h1, _, h3, _⟩ := loop_total R (last_idx w st.self addr size) hw fuel
    (first_idx w st.self addr) st (by omega) hfuel
  exact ⟨h1, h3⟩

/-- C1. Postcondition of `read_barrier` without a header function: for every
window state whose bitmap has `m_page_count` entries, every `addr` and every
`size >= 1` with `m_first_page <= addr >> m_page_shift` and
`((addr + size - 1) >> m_page_shift) - m_first_page < m_page_count`, the call
returns (one unit of fuel per page of the range is enough) and every page index
from `(addr >> m_page_shift) - m_first_page` to
`((addr + size - 1) >> m_page_shift) - m_first_page` inclusive is marked up to
date, assuming `refresh_page(i)` marks page `i` up to date and makes no other
page stale. -/
theorem read_barrier_marks_range_up_to_date (w : Nat)
    (rp : Nat → EncryptedFileMapping → Option EncryptedFileMapping) (R : RefreshMarksUpToDate rp)
    (fuel : Nat) (st : State) (addr size : Nat)
    (hsize : 1 ≤ size)
    (hlen : st.self.m_up_to_date_pages.length = st.self.m_page_count)
    (hcount : st.self.m_page_count < 2 ^ w)
    (hfirst : st.self.m_first_page ≤ addr >>> st.self.m_page_shift)
    (hlast : last_idx w st.self addr size < st.self.m_page_count)
    (hfuel : last_idx w st.self addr size + 1 - first_idx w st.self addr ≤ fuel) :
    (read_barrier w rp fuel st addr size none).status = Status.ok ∧
    ∀ j : Nat, first_idx w st.self addr ≤ j → j ≤ last_idx w st.self addr size →
      (read_barrier w rp fuel st addr size none).st.self.m_up_to_date_pages[j]? = some true :=
  by
    have _ := hsize
    have _ := hfirst
    have hw : last_idx w st.self addr size + 1 < 2 ^ w := by omega
    have hin : last_idx w st.self addr size < st.self.m_up_to_date_pages.length := by omega
    obtain ⟨hok, _, hrange, _⟩ := loop_total R (last_idx w st.self addr size) hw fuel
      (first_idx w st.self addr) st hin hfuel
    rw [read_barrier_none]
    exact ⟨hok, hrange⟩

theorem read_barrier_marks_range_up_to_date_witness :
    RefreshMarksUpToDate refresh_bit ∧
    1 ≤ 8192 ∧
    state4.self.m_up_to_date_pages.length = state4.self.m_page_count ∧
    state4.self.m_page_count < 2 ^ 64 ∧
    state4.self.m_first_page ≤ 65636 >>> state4.self.m_page_shift ∧
    last_idx 64 state4.self 65636 8192 < state4.self.m_page_count ∧
    last_idx 64 state4.self 65636 8192 + 1 - first_idx 64 state4.self 65636 ≤ 3 ∧
    (read_barrier 64 refresh_bit 3 state4 65636 8192 none).status = Status.ok ∧
    ∀ j : Nat, first_idx 64 state4.self 65636 ≤ j → j ≤ last_idx 64 state4.self 65636 8192 →
      (read_barrier 64 refresh_bit 3 state4 65636 8192 none).st.self.m_up_to_date_pages[j]?
        = some true :=
  ⟨refresh_bit_marks, by decide, by decide, by decide,
    by decide, by decide, by decide,
    read_barrier_marks_range_up_to_date 64 refresh_bit
      (refresh_bit_marks) 3 state4 65636 8192
      (by decide) (by decide) (by decide) (by decide) (by decide) (by decide)⟩

/-- Both passes return when the ranges they walk lie inside the bitmap, and
leave every page of those ranges up to date. -/
theorem read_barrier_total (w : Nat)
    (rp : Nat → EncryptedFileMapping → Option EncryptedFileMapping) (R : RefreshMarksUpToDate rp)
    (G : RefreshKeepsGeometry rp) (fuel : Nat) (st : State) (addr size : Nat)
    (h : Header_to_size)
    (hlen : st.self.m_up_to_date_pages.length = st.self.m_page_count)
    (hcount : st.self.m_page_count < 2 ^ w)
    (hlast : last_idx w st.self addr size < st.self.m_page_count)
    (hfuel : last_idx w st.self addr size + 1 - first_idx w st.self addr ≤ fuel)
    (hlast2 : last_idx w st.self addr (h addr) < st.self.m_page_count)
    (hfuel2 : last_idx w st.self addr (h addr) + 1 - first_idx w st.self addr ≤ fuel) :
    (read_barrier w rp fuel st addr size (some h)).status = Status.ok ∧
    (∀ j : Nat, first_idx w st.self addr ≤ j → j ≤ last_idx w st.self addr (h addr) →
      (read_barrier w rp fuel st addr size (some h)).st.self.m_up_to_date_pages[j]?
        = some true) ∧
    (∀ j : Nat, first_idx w st.self addr ≤ j → j ≤ last_idx w st.self addr size →
      (read_barrier w rp fuel st addr size (some h)).st.self.m_up_to_date_pages[j]?
        = some true) := by
  have hw : last_idx w st.self addr size + 1 < 2 ^ w := by omega
  have hw2 : last_idx w st.self addr (h addr) + 1 < 2 ^ w := by omega
  have hnone := read_barrier_none w rp fuel st addr size
  obtain ⟨a1, a2, a3, _⟩ := loop_total R (last_idx w st.self addr size) hw fuel
    (first_idx w st.self addr) st (by omega) hfuel
  obtain ⟨g1, g2, _⟩ := loop_geometry (w := w) G (last_idx w st.self addr size) fuel
    (first_idx w st.self addr) st
  rw [← hnone] at a1 a2 a3 g1 g2
  rw [read_barrier_some w rp fuel st addr size h a1, last_idx_congr w addr (h addr) g1 g2]
  obtain ⟨b1, _, b3, b4⟩ := loop_total R (last_idx w st.self addr (h addr)) hw2 fuel
    (first_idx w st.self addr)
    (header_step addr (read_barrier w rp fuel st addr size none).st)
    (by simp only [header_step, a2]; omega) hfuel2
  exact ⟨b1, b3, fun j hj1 hj2 => b4 j (a3 j hj1 hj2)⟩

/-! ## Both passes, with their traces -/

theorem read_barrier_some_trace (w : Nat)
    (rp : Nat → EncryptedFileMapping → Option EncryptedFileMapping) (R : RefreshMarksUpToDate rp)
    (G : RefreshKeepsGeometry rp) (fuel : Nat) (st : State) (addr size : Nat)
    (h : Header_to_size)
    (hlen : st.self.m_up_to_date_pages.length = st.self.m_page_count)
    (hcount : st.self.m_page_count < 2 ^ w)
    (hlast : last_idx w st.self addr size < st.self.m_page_count)
    (hfuel : last_idx w st.self addr size + 1 - first_idx w st.self addr ≤ fuel)
    (hlast2 : last_idx w st.self addr (h addr) < st.self.m_page_count)
    (hfuel2 : last_idx w st.self addr (h addr) + 1 - first_idx w st.self addr ≤ fuel) :
    ∃ evs1 evs2, (read_barrier w rp fuel st addr size (some h)).st.trace =
        st.trace ++ evs1 ++
          Event.header_to_size addr (read_barrier w rp fuel st addr size none).st.self :: evs2 ∧
      reads evs1 = List.range' (first_idx w st.self addr)
        (last_idx w st.self addr size + 1 - first_idx w st.self addr) ∧
      reads evs2 = List.range' (first_idx w st.self addr)
        (last_idx w st.self addr (h addr) + 1 - first_idx w st.self addr) ∧
      (∀ p ∈ refreshes evs1, p.1 ≤ last_idx w st.self addr size) ∧
      (∀ p ∈ refreshes evs2, p.1 ≤ last_idx w st.self addr (h addr)) := by
  have hw : last_idx w st.self addr size + 1 < 2 ^ w := by omega
  have hw2 : last_idx w st.self addr (h addr) + 1 < 2 ^ w := by omega
  have hnone := read_barrier_none w rp fuel st addr size
  obtain ⟨a1, a2, _, _⟩ := loop_total R (last_idx w st.self addr size) hw fuel
    (first_idx w st.self addr) st (by omega) hfuel
  obtain ⟨g1, g2, _⟩ := loop_geometry (w := w) G (last_idx w st.self addr size) fuel
    (first_idx w st.self addr) st
  obtain ⟨evs1, b1, b2, _, b4⟩ := loop_trace_events R (last_idx w st.self addr size) hw fuel
    (first_idx w st.self addr) st (by omega) hfuel
  rw [← hnone] at a1 a2 g1 g2 b1
  obtain ⟨evs2, c1, c2, _, c4⟩ := loop_trace_events R (last_idx w st.self addr (h addr))
    hw2 fuel (first_idx w st.self addr)
    (header_step addr (read_barrier w rp fuel st addr size none).st)
    (by simp only [header_step, a2]; omega) hfuel2
  rw [read_barrier_some w rp fuel st addr size h a1, last_idx_congr w addr (h addr) g1 g2]
  refine ⟨evs1, evs2, ?_, b2, c2, fun p hp => (b4 p hp).2, fun p hp => (c4 p hp).2⟩
  rw [c1]
  simp only [header_step, b1, List.append_assoc, List.singleton_append]

/-! ## The second pass -/

/-- C3. Second pass of `read_barrier` for variable-length records: for every
call with a header function that reports the length `L = h addr >= 1` such that
the last index computed from `addr + L - 1` lies inside the window, whenever the
call returns, every page index from `first_idx` to that last index is marked up
to date, whether `L` is larger than `size` or not, and so is every page of the
first pass. The call does return when the range computed from `size` lies
inside the window too; after the call of the header function the loop is then
run again from `first_idx` to the last index of `L`, reading the bitmap at
exactly these indices, in order. `refresh_page(i)` is assumed to mark page `i`
up to date, to make no other page stale and to leave the geometry of the window
alone. -/
theorem read_barrier_second_pass_covers_record (w : Nat)
    (rp : Nat → EncryptedFileMapping → Option EncryptedFileMapping)
    (R : RefreshMarksUpToDate rp) (G : RefreshKeepsGeometry rp) (fuel : Nat) (st : State)
    (addr size : Nat) (h : Header_to_size)
    (hlen : st.self.m_up_to_date_pages.length = st.self.m_page_count)
    (hcount : st.self.m_page_count < 2 ^ w)
    (hL : 1 ≤ h addr)
    (hlast2 : last_idx w st.self addr (h addr) < st.self.m_page_count) :
    ((read_barrier w rp fuel st addr size (some h)).status = Status.ok →
      (∀ j : Nat, first_idx w st.self addr ≤ j → j ≤ last_idx w st.self addr (h addr) →
        (read_barrier w rp fuel st addr size (some h)).st.self.m_up_to_date_pages[j]?
          = some true) ∧
      (∀ j : Nat, first_idx w st.self addr ≤ j → j ≤ last_idx w st.self addr size →
        (read_barrier w rp fuel st addr size (some h)).st.self.m_up_to_date_pages[j]?
          = some true)) ∧
    (last_idx w st.self addr size < st.self.m_page_count →
      last_idx w st.self addr size + 1 - first_idx w st.self addr ≤ fuel →
      last_idx w st.self addr (h addr) + 1 - first_idx w st.self addr ≤ fuel →
      (read_barrier w rp fuel st addr size (some h)).status = Status.ok ∧
      ∃ evs1 evs2, (read_barrier w rp fuel st addr size (some h)).st.trace =
          st.trace ++ evs1 ++
            Event.header_to_size addr (read_barrier w rp fuel st addr size none).st.self
              :: evs2 ∧
        reads evs2 = List.range' (first_idx w st.self addr)
          (last_idx w st.self addr (h addr) + 1 - first_idx w st.self addr)) := by
  have _ := hL
  constructor
  · intro hok
    have hok1 : (read_barrier w rp fuel st addr size none).status = Status.ok := by
      by_contra hcon
      rw [read_barrier_some_of_fault w rp fuel st addr size h hcon] at hok
      exact hcon hok
    obtain ⟨g1, g2, _⟩ := loop_geometry (w := w) G (last_idx w st.self addr size) fuel
      (first_idx w st.self addr) st
    obtain ⟨_, a2⟩ := loop_returned (w := w) R (last_idx w st.self addr size) fuel
      (first_idx w st.self addr) st
    rw [← read_barrier_none] at g1 g2 a2
    rw [read_barrier_some w rp fuel st addr size h hok1,
      last_idx_congr w addr (h addr) g1 g2] at hok ⊢
    obtain ⟨b1, b2⟩ := loop_returned (w := w) R (last_idx w st.self addr (h addr)) fuel
      (first_idx w st.self addr)
      (header_step addr (read_barrier w rp fuel st addr size none).st)
    exact ⟨b2 hok, fun j hj1 hj2 => b1 j (a2 hok1 j hj1 hj2)⟩
  · intro hlast hfuel hfuel2
    obtain ⟨a1, _, _⟩ := read_barrier_total w rp R G fuel st addr size h hlen hcount hlast
      hfuel hlast2 hfuel2
    obtain ⟨evs1, evs2, b1, _, b3, _⟩ := read_barrier_some_trace w rp R G fuel st addr size h
      hlen hcount hlast hfuel hlast2 hfuel2
    exact ⟨a1, evs1, evs2, b1, b3⟩

theorem read_barrier_second_pass_covers_record_witness :
    RefreshMarksUpToDate refresh_bit ∧ RefreshKeepsGeometry refresh_bit ∧
    state4.self.m_up_to_date_pages.length = state4.self.m_page_count ∧
    state4.self.m_page_count < 2 ^ 64 ∧
    1 ≤ header12000 65636 ∧ 8 < header12000 65636 ∧
    last_idx 64 state4.self 65636 (header12000 65636) < state4.self.m_page_count ∧
    last_idx 64 state4.self 65636 8 < state4.self.m_page_count ∧
    last_idx 64 state4.self 65636 8 + 1 - first_idx 64 state4.self 65636 ≤ 3 ∧
    last_idx 64 state4.self 65636 (header12000 65636) + 1 - first_idx 64 state4.self 65636 ≤ 3 ∧
    (read_barrier 64 refresh_bit 3 state4 65636 8 (some header12000)).status = Status.ok ∧
    (∀ j : Nat, first_idx 64 state4.self 65636 ≤ j →
      j ≤ last_idx 64 state4.self 65636 (header12000 65636) →
      (read_barrier 64 refresh_bit 3 state4 65636 8
        (some header12000)).st.self.m_up_to_date_pages[j]? = some true) ∧
    (read_barrier 64 refresh_bit 3 state4 65636 8
      (some header12000)).st.self.m_up_to_date_pages = [true, true, true, true] :=
  have hret := ((read_barrier_second_pass_covers_record 64 refresh_bit refresh_bit_marks
      refresh_bit_keeps_geometry 3 state4 65636 8 header12000
      (by decide) (by decide) (by decide) (by decide)).2
        (by decide) (by decide) (by decide)).1
  ⟨refresh_bit_marks, refresh_bit_keeps_geometry,
    by decide, by decide, by decide, by decide, by decide, by decide, by decide, by decide,
    hret,
    ((read_barrier_second_pass_covers_record 64 refresh_bit refresh_bit_marks
      refresh_bit_keeps_geometry 3 state4 65636 8 header12000
      (by decide) (by decide) (by decide) (by decide)).1 hret).1,
    by decide⟩

/-! ## The page-state invariant -/

/-- C4. `read_barrier` keeps the invariant "a dirty page is up to date": from a
window state in which every dirty page is up to date, with or without a header
function and however the run ends, every call of `refresh_page` it makes is on a
page whose up-to-date bit is false at that moment and which is therefore not
dirty, the dirty bitmap at the end is the one at entry, and every dirty page is
still up to date. The call returns when the ranges of both passes lie inside
the window. `refresh_page` is assumed to mark its page up to date, to make no
other page stale and to leave the dirty bitmap and the geometry alone. -/
theorem read_barrier_preserves_dirty_up_to_date (w : Nat)
    (rp : Nat → EncryptedFileMapping → Option EncryptedFileMapping) (R : RefreshMarksUpToDate rp)
    (D : RefreshKeepsDirty rp) (G : RefreshKeepsGeometry rp)
    (fuel : Nat) (st : State) (addr size : Nat) (hts : Option Header_to_size)
    (hinv : DirtyUpToDate st.self) :
    (∃ evs, (read_barrier w rp fuel st addr size hts).st.trace = st.trace ++ evs ∧
      ∀ p ∈ refreshes evs, p.2.m_up_to_date_pages[p.1]? = some false ∧
        p.2.m_dirty_pages[p.1]? ≠ some true) ∧
    (read_barrier w rp fuel st addr size hts).st.self.m_dirty_pages = st.self.m_dirty_pages ∧
    DirtyUpToDate (read_barrier w rp fuel st addr size hts).st.self ∧
    (st.self.m_up_to_date_pages.length = st.self.m_page_count →
      st.self.m_page_count < 2 ^ w →
      last_idx w st.self addr size < st.self.m_page_count →
      last_idx w st.self addr size + 1 - first_idx w st.self addr ≤ fuel →
      (∀ h, hts = some h → last_idx w st.self addr (h addr) < st.self.m_page_count ∧
        last_idx w st.self addr (h addr) + 1 - first_idx w st.self addr ≤ fuel) →
      (read_barrier w rp fuel st addr size hts).status = Status.ok) := by
  have hnone := read_barrier_none w rp fuel st addr size
  obtain ⟨a1, a2, evs1, a3, a4⟩ := loop_refresh_safe (w := w) R D (last_idx w st.self addr size)
    fuel (first_idx w st.self addr) st hinv
  rw [← hnone] at a1 a2 a3
  cases hts with
  | none =>
    refine ⟨⟨evs1, a3, a4⟩, a2, a1, ?_⟩
    intro hlen hcount hlast hfuel _
    exact (first_pass_total w rp R fuel st addr size hlen hcount hlast
      hfuel).1
  | some h =>
    by_cases hok : (read_barrier w rp fuel st addr size none).status = Status.ok
    · obtain ⟨b1, b2, evs2, b3, b4⟩ := loop_refresh_safe (w := w) R D
        (last_idx w (read_barrier w rp fuel st addr size none).st.self addr (h addr)) fuel
        (first_idx w st.self addr)
        (header_step addr (read_barrier w rp fuel st addr size none).st) a1
      rw [← read_barrier_some w rp fuel st addr size h hok] at b1 b2 b3
      refine ⟨⟨evs1 ++ Event.header_to_size addr
          (read_barrier w rp fuel st addr size none).st.self :: evs2, ?_, ?_⟩,
        b2.trans a2, b1, ?_⟩
      · rw [b3]
        simp only [header_step, a3, List.append_assoc, List.singleton_append]
      · intro p hp
        have : p ∈ refreshes evs1 ∨ p ∈ refreshes evs2 := by
          simpa [refreshes] using hp
        rcases this with hp1 | hp2
        · exact a4 p hp1
        · exact b4 p hp2
      · intro hlen hcount hlast hfuel h2
        obtain ⟨c1, c2⟩ := h2 h rfl
        exact (read_barrier_total w rp R G fuel st addr size h hlen hcount hlast hfuel c1 c2).1
    · rw [read_barrier_some_of_fault w rp fuel st addr size h hok]
      refine ⟨⟨evs1, a3, a4⟩, a2, a1, ?_⟩
      intro hlen hcount hlast hfuel _
      exact absurd (first_pass_total w rp R fuel st addr size hlen hcount
        hlast hfuel).1 hok

theorem state4_dirty_up_to_date : DirtyUpToDate state4.self := by
  intro j hj
  rcases j with _ | _ | _ | _ | j <;> simp_all [state4, window4]

theorem read_barrier_preserves_dirty_up_to_date_witness :
    RefreshMarksUpToDate refresh_bit ∧ RefreshKeepsDirty refresh_bit ∧
    RefreshKeepsGeometry refresh_bit ∧ DirtyUpToDate state4.self ∧
    (read_barrier 64 refresh_bit 3 state4 65636 8 (some header12000)).st.self.m_dirty_pages
      = state4.self.m_dirty_pages ∧
    DirtyUpToDate (read_barrier 64 refresh_bit 3 state4 65636 8 (some header12000)).st.self ∧
    (read_barrier 64 refresh_bit 3 state4 65636 8 (some header12000)).status = Status.ok :=
  ⟨refresh_bit_marks,
    refresh_bit_keeps_dirty,
    refresh_bit_keeps_geometry,
    state4_dirty_up_to_date,
    (read_barrier_preserves_dirty_up_to_date 64 refresh_bit
      (refresh_bit_marks)
      (refresh_bit_keeps_dirty)
      (refresh_bit_keeps_geometry)
      3 state4 65636 8 (some header12000) state4_dirty_up_to_date).2.1,
    (read_barrier_preserves_dirty_up_to_date 64 refresh_bit
      (refresh_bit_marks)
      (refresh_bit_keeps_dirty)
      (refresh_bit_keeps_geometry)
      3 state4 65636 8 (some header12000) state4_dirty_up_to_date).2.2.1,
    (read_barrier_preserves_dirty_up_to_date 64 refresh_bit
      (refresh_bit_marks)
      (refresh_bit_keeps_dirty)
      (refresh_bit_keeps_geometry)
      3 state4 65636 8 (some header12000) state4_dirty_up_to_date).2.2.2
      (by decide) (by decide) (by decide) (by decide)
      (by intro h hh; cases hh; exact ⟨by decide, by decide⟩)⟩

/-! ## The header function -/

/-- C7. The header function is invoked on a freshly decrypted prefix. With the
null pointer the call is the first pass alone and its trace holds no call of
the header function. With a non-null pointer `h`: when the first pass does not
return, neither does the call, and `h` is not invoked; when the first pass
returns, every page of the range `first_idx .. last_idx` is up to date at that
moment and the trace of the call is the complete trace of the first pass, then
one call `header_to_size(addr)` made in the window state the first pass left,
then the steps of the second loop, which hold no further call of the header
function. The first pass returns, after reading each index of the range once,
when the range lies inside the window. `refresh_page(i)` is assumed to mark
page `i` up to date and to make no other page stale. -/
theorem header_to_size_called_once_after_first_pass (w : Nat)
    (rp : Nat → EncryptedFileMapping → Option EncryptedFileMapping)
    (R : RefreshMarksUpToDate rp) (fuel : Nat) (st : State) (addr size : Nat) :
    ∃ evs1, (read_barrier w rp fuel st addr size none).st.trace = st.trace ++ evs1 ∧
      header_calls evs1 = [] ∧
      ((read_barrier w rp fuel st addr size none).status ≠ Status.ok →
        ∀ h : Header_to_size,
          read_barrier w rp fuel st addr size (some h)
            = read_barrier w rp fuel st addr size none) ∧
      ((read_barrier w rp fuel st addr size none).status = Status.ok →
        (∀ j : Nat, first_idx w st.self addr ≤ j → j ≤ last_idx w st.self addr size →
          (read_barrier w rp fuel st addr size none).st.self.m_up_to_date_pages[j]?
            = some true) ∧
        ∀ h : Header_to_size, ∃ evs2,
          (read_barrier w rp fuel st addr size (some h)).st.trace =
            st.trace ++ evs1 ++
              Event.header_to_size addr (read_barrier w rp fuel st addr size none).st.self
                :: evs2 ∧
          header_calls evs2 = [] ∧
          header_calls (evs1 ++
              Event.header_to_size addr (read_barrier w rp fuel st addr size none).st.self
                :: evs2) = [(addr, (read_barrier w rp fuel st addr size none).st.self)]) ∧
      (st.self.m_up_to_date_pages.length = st.self.m_page_count →
        st.self.m_page_count < 2 ^ w →
        last_idx w st.self addr size < st.self.m_page_count →
        last_idx w st.self addr size + 1 - first_idx w st.self addr ≤ fuel →
        (read_barrier w rp fuel st addr size none).status = Status.ok ∧
        reads evs1 = List.range' (first_idx w st.self addr)
          (last_idx w st.self addr size + 1 - first_idx w st.self addr)) := by
  obtain ⟨evs1, b1, b3, _⟩ := loop_events w rp (last_idx w st.self addr size) fuel
    (first_idx w st.self addr) st
  obtain ⟨_, a2⟩ := loop_returned (w := w) R (last_idx w st.self addr size) fuel
    (first_idx w st.self addr) st
  rw [← read_barrier_none] at b1 a2
  refine ⟨evs1, b1, b3, ?_, ?_, ?_⟩
  · intro hne h
    exact read_barrier_some_of_fault w rp fuel st addr size h hne
  · intro hok
    refine ⟨a2 hok, ?_⟩
    intro h
    rw [read_barrier_some w rp fuel st addr size h hok]
    obtain ⟨evs2, c1, c2, _⟩ := loop_events w rp
      (last_idx w (read_barrier w rp fuel st addr size none).st.self addr (h addr)) fuel
      (first_idx w st.self addr)
      (header_step addr (read_barrier w rp fuel st addr size none).st)
    refine ⟨evs2, ?_, c2, ?_⟩
    · rw [c1]
      simp only [header_step, b1, List.append_assoc, List.singleton_append]
    · have e : header_calls (evs1 ++
          Event.header_to_size addr (read_barrier w rp fuel st addr size none).st.self :: evs2)
          = header_calls evs1 ++
            (addr, (read_barrier w rp fuel st addr size none).st.self) :: header_calls evs2 := by
        simp [header_calls, List.filterMap_append]
      rw [e, b3, c2]
      rfl
  · intro hlen hcount hlast hfuel
    have hw : last_idx w st.self addr size + 1 < 2 ^ w := by omega
    obtain ⟨evs, d1, d2, _, _⟩ := loop_trace_events R (last_idx w st.self addr size) hw fuel
      (first_idx w st.self addr) st (by omega) hfuel
    rw [← read_barrier_none] at d1
    have : evs = evs1 := List.append_cancel_left (d1.symm.trans b1)
    subst this
    exact ⟨(first_pass_total w rp R fuel st addr size hlen hcount hlast hfuel).1, d2⟩

theorem header_to_size_called_once_after_first_pass_witness :
    RefreshMarksUpToDate refresh_bit ∧
    (read_barrier 64 refresh_bit 3 state4 65636 8192 none).status = Status.ok ∧
    header_calls (read_barrier 64 refresh_bit 3 state4 65636 8192 none).st.trace = [] ∧
    header_calls (read_barrier 64 refresh_bit 3 state4 65636 8192 (some header12000)).st.trace
      = [(65636, (read_barrier 64 refresh_bit 3 state4 65636 8192 none).st.self)] ∧
    (read_barrier 64 refresh_bit 3 state4 65636 8192 none).st.self.m_up_to_date_pages
      = [true, true, true, true] ∧
    ∃ evs1, (read_barrier 64 refresh_bit 3 state4 65636 8192 none).st.trace
      = state4.trace ++ evs1 ∧ header_calls evs1 = [] := by
  obtain ⟨evs1, h1, h2, _⟩ := header_to_size_called_once_after_first_pass 64 refresh_bit
    refresh_bit_marks 3 state4 65636 8192
  exact ⟨refresh_bit_marks, by decide, by decide, by decide, by decide, evs1, h1, h2⟩

/-! ## Lazy locking -/

/-- C2. Lazy locking in `read_barrier` (null header function, lock not held on
entry, range inside the window): the call returns; `lock.lock()` is called if
and only if some page of the range is not up to date on entry, at most once, and
every call is made on a lock that is not held. When every page of the range is
up to date on entry the call makes no `lock.lock()` and no `refresh_page` call
and leaves the lock, the window and hence both bitmaps as they were. -/
theorem read_barrier_locks_lazily (w : Nat)
    (rp : Nat → EncryptedFileMapping → Option EncryptedFileMapping) (R : RefreshMarksUpToDate rp)
    (fuel : Nat) (st : State) (addr size : Nat)
    (hunlocked : st.lock.holds_lock = false)
    (hlen : st.self.m_up_to_date_pages.length = st.self.m_page_count)
    (hcount : st.self.m_page_count < 2 ^ w)
    (hlast : last_idx w st.self addr size < st.self.m_page_count)
    (hfuel : last_idx w st.self addr size + 1 - first_idx w st.self addr ≤ fuel) :
    (read_barrier w rp fuel st addr size none).status = Status.ok ∧
    ∃ evs, (read_barrier w rp fuel st addr size none).st.trace = st.trace ++ evs ∧
      (locks evs ≠ [] ↔ ∃ j : Nat, first_idx w st.self addr ≤ j ∧
        j ≤ last_idx w st.self addr size ∧ st.self.m_up_to_date_pages[j]? = some false) ∧
      (locks evs).length ≤ 1 ∧
      (∀ l ∈ locks evs, l.holds_lock = false) ∧
      ((∀ j : Nat, first_idx w st.self addr ≤ j → j ≤ last_idx w st.self addr size →
          st.self.m_up_to_date_pages[j]? = some true) →
        locks evs = [] ∧ refreshes evs = [] ∧
        (read_barrier w rp fuel st addr size none).st.lock = st.lock ∧
        (read_barrier w rp fuel st addr size none).st.self = st.self ∧
        (read_barrier w rp fuel st addr size none).st.self.m_up_to_date_pages
          = st.self.m_up_to_date_pages ∧
        (read_barrier w rp fuel st addr size none).st.self.m_dirty_pages
          = st.self.m_dirty_pages) := by
  obtain ⟨a1, _⟩ := first_pass_total w rp R fuel st addr size hlen
    hcount hlast hfuel
  have hw : last_idx w st.self addr size + 1 < 2 ^ w := by omega
  obtain ⟨evs, b1, _, _, _, b5, b6⟩ := loop_trace R (last_idx w st.self addr size) hw fuel
    (first_idx w st.self addr) st (by omega) hfuel
  obtain ⟨evs2, k1, _, k3, _⟩ := loop_events w rp (last_idx w st.self addr size) fuel
    (first_idx w st.self addr) st
  have : evs2 = evs := List.append_cancel_left (k1.symm.trans b1)
  subst this
  rw [← read_barrier_none] at b1 b6
  by_cases hex : ∃ j : Nat, first_idx w st.self addr ≤ j ∧
      j ≤ last_idx w st.self addr size ∧ st.self.m_up_to_date_pages[j]? = some false
  · have hl := b5 hunlocked hex
    refine ⟨a1, evs2, b1, ?_, by simp [hl], k3, ?_⟩
    · simp [hl, hex]
    · intro hall
      obtain ⟨j, hj1, hj2, hj3⟩ := hex
      have := hall j hj1 hj2
      rw [hj3] at this
      cases this
  · have hall : ∀ j : Nat, first_idx w st.self addr ≤ j → j ≤ last_idx w st.self addr size →
        st.self.m_up_to_date_pages[j]? = some true := by
      intro j hj1 hj2
      have hj : j < st.self.m_up_to_date_pages.length := by omega
      cases hb : st.self.m_up_to_date_pages[j]? with
      | none =>
        rw [List.getElem?_eq_none_iff] at hb
        omega
      | some b =>
        cases b with
        | true => rfl
        | false => exact absurd ⟨j, hj1, hj2, hb⟩ hex
    obtain ⟨c1, c2, c3, c4⟩ := b6 hall
    refine ⟨a1, evs2, b1, ?_, by simp [c1], k3, fun _ => ⟨c1, c2, c4, c3, by rw [c3], by rw [c3]⟩⟩
    simp [c1, hex]

theorem read_barrier_locks_lazily_witness :
    RefreshMarksUpToDate refresh_bit ∧ state4.lock.holds_lock = false ∧
    state4.self.m_up_to_date_pages.length = state4.self.m_page_count ∧
    state4.self.m_page_count < 2 ^ 64 ∧
    last_idx 64 state4.self 65636 8192 < state4.self.m_page_count ∧
    last_idx 64 state4.self 65636 8192 + 1 - first_idx 64 state4.self 65636 ≤ 3 ∧
    (read_barrier 64 refresh_bit 3 state4 65636 8192 none).status = Status.ok ∧
    locks (read_barrier 64 refresh_bit 3 state4 65636 8192 none).st.trace = [⟨false⟩] ∧
    locks (read_barrier 64 refresh_bit 3 state4 65636 8 none).st.trace = [] :=
  ⟨refresh_bit_marks, by decide, by decide, by decide,
    by decide, by decide,
    (read_barrier_locks_lazily 64 refresh_bit
      (refresh_bit_marks) 3 state4 65636 8192
      (by decide) (by decide) (by decide) (by decide) (by decide)).1,
    by decide, by decide⟩

/-! ## Exactness of the refresh set -/

/-- C8. Exactness of the refresh set: `read_barrier` without a header function,
on a range with `size >= 1` that lies inside the window, returns and its calls
of `refresh_page` are, in the order they are made, the indices of the range
`first_idx .. last_idx` that are stale on entry, in ascending order. Hence each
such page is refreshed exactly once and no page outside the range and no page
that is up to date on entry is refreshed (assuming `refresh_page(i)` changes
only page `i`'s up-to-date bit). -/
theorem read_barrier_refreshes_exactly_stale (w : Nat)
    (rp : Nat → EncryptedFileMapping → Option EncryptedFileMapping) (O : RefreshOnlySetsBit rp)
    (fuel : Nat) (st : State) (addr size : Nat)
    (hsize : 1 ≤ size)
    (hlen : st.self.m_up_to_date_pages.length = st.self.m_page_count)
    (hcount : st.self.m_page_count < 2 ^ w)
    (hfirst : st.self.m_first_page ≤ addr >>> st.self.m_page_shift)
    (hlast : last_idx w st.self addr size < st.self.m_page_count)
    (hfuel : last_idx w st.self addr size + 1 - first_idx w st.self addr ≤ fuel) :
    (read_barrier w rp fuel st addr size none).status = Status.ok ∧
    ∃ evs, (read_barrier w rp fuel st addr size none).st.trace = st.trace ++ evs ∧
      (refreshes evs).map Prod.fst =
        (List.range' (first_idx w st.self addr)
          (last_idx w st.self addr size + 1 - first_idx w st.self addr)).filter
          (fun j => decide (st.self.m_up_to_date_pages[j]? = some false)) ∧
      List.Pairwise (fun a b => a < b) ((refreshes evs).map Prod.fst) ∧
      ∀ i : Nat, i ∈ (refreshes evs).map Prod.fst ↔
        (first_idx w st.self addr ≤ i ∧ i ≤ last_idx w st.self addr size ∧
          st.self.m_up_to_date_pages[i]? = some false) := by
  have _ := hsize
  have _ := hfirst
  obtain ⟨a1, _⟩ := first_pass_total w rp (marks_of_only_sets_bit O)
    fuel st addr size hlen hcount hlast hfuel
  have hw : last_idx w st.self addr size + 1 < 2 ^ w := by omega
  obtain ⟨evs, b1, b2⟩ := loop_refresh_exact O (last_idx w st.self addr size) hw fuel
    (first_idx w st.self addr) st (by omega) hfuel
  rw [← read_barrier_none] at b1
  refine ⟨a1, evs, b1, b2, ?_, ?_⟩
  · rw [b2]
    exact List.Pairwise.filter _ (List.pairwise_lt_range' _ _)
  · intro i
    rw [b2, List.mem_filter, List.mem_range'_1]
    simp only [decide_eq_true_eq]
    constructor
    · rintro ⟨⟨h1, h2⟩, h3⟩
      exact ⟨h1, by omega, h3⟩
    · rintro ⟨h1, h2, h3⟩
      exact ⟨⟨h1, by omega⟩, h3⟩

theorem read_barrier_refreshes_exactly_stale_witness :
    RefreshOnlySetsBit refresh_bit ∧ 1 ≤ 8192 ∧
    state4.self.m_up_to_date_pages.length = state4.self.m_page_count ∧
    state4.self.m_page_count < 2 ^ 64 ∧
    state4.self.m_first_page ≤ 65636 >>> state4.self.m_page_shift ∧
    last_idx 64 state4.self 65636 8192 < state4.self.m_page_count ∧
    last_idx 64 state4.self 65636 8192 + 1 - first_idx 64 state4.self 65636 ≤ 3 ∧
    (read_barrier 64 refresh_bit 3 state4 65636 8192 none).status = Status.ok ∧
    (refreshes (read_barrier 64 refresh_bit 3 state4 65636 8192 none).st.trace).map Prod.fst
      = [1, 2] :=
  ⟨refresh_bit_only_sets_bit, by decide, by decide, by decide, by decide, by decide, by decide,
    (read_barrier_refreshes_exactly_stale 64 refresh_bit refresh_bit_only_sets_bit 3 state4
      65636 8192 (by decide) (by decide) (by decide) (by decide) (by decide) (by decide)).1,
    by decide⟩

/-! ## Indices of a range that does not overflow -/

theorem sub_wrap_add_wrap_one (w n : Nat) (h1 : 1 ≤ n) (h2 : n - 1 < 2 ^ w) :
    sub_wrap w (n % 2 ^ w) 1 = n - 1 := by
  have hM : 0 < 2 ^ w := Nat.two_pow_pos w
  by_cases hn : n < 2 ^ w
  · rw [Nat.mod_eq_of_lt hn]
    exact sub_wrap_of_le h1 hn
  · have hn2 : n = 2 ^ w := by omega
    rw [hn2, Nat.mod_self]
    unfold sub_wrap
    by_cases hone : 2 ^ w = 1
    · simp [hone]
    · have h1lt : 1 < 2 ^ w := by omega
      rw [Nat.zero_mod, Nat.mod_eq_of_lt h1lt, Nat.zero_add]
      exact Nat.mod_eq_of_lt (by omega)

theorem first_idx_of_in_window (w : Nat) (m : EncryptedFileMapping) (addr : Nat)
    (haddr : addr < 2 ^ w) (hfirst : m.m_first_page ≤ addr >>> m.m_page_shift) :
    first_idx w m addr = addr >>> m.m_page_shift - m.m_first_page := by
  unfold first_idx first_accessed_page
  exact sub_wrap_of_le hfirst (lt_of_le_of_lt (shiftRight_le_self _ _) haddr)

theorem last_accessed_page_of_no_overflow (w : Nat) (m : EncryptedFileMapping)
    (addr size : Nat) (hsize : 1 ≤ size) (hno : addr + size - 1 < 2 ^ w) :
    last_accessed_page w m addr size = (addr + size - 1) >>> m.m_page_shift := by
  unfold last_accessed_page add_wrap
  rw [sub_wrap_add_wrap_one w (addr + size) (by omega) hno]

theorem last_idx_of_in_window (w : Nat) (m : EncryptedFileMapping) (addr size : Nat)
    (hsize : 1 ≤ size) (hno : addr + size - 1 < 2 ^ w)
    (hfirst : m.m_first_page ≤ addr >>> m.m_page_shift) :
    last_idx w m addr size = (addr + size - 1) >>> m.m_page_shift - m.m_first_page := by
  unfold last_idx
  rw [last_accessed_page_of_no_overflow w m addr size hsize hno]
  refine sub_wrap_of_le ?_ (lt_of_le_of_lt (shiftRight_le_self _ _) hno)
  exact le_trans hfirst (shiftRight_mono _ (by omega))

theorem no_overflow_of_fits (w : Nat) (m : EncryptedFileMapping) (a : Nat)
    (hfits : (m.m_first_page + m.m_page_count) * 2 ^ m.m_page_shift ≤ 2 ^ w)
    (ha : a >>> m.m_page_shift < m.m_first_page + m.m_page_count) : a < 2 ^ w := by
  rw [Nat.shiftRight_eq_div_pow] at ha
  have h2 : a < (m.m_first_page + m.m_page_count) * 2 ^ m.m_page_shift :=
    (Nat.div_lt_iff_lt_mul (Nat.two_pow_pos _)).mp ha
  omega

/-! ## Bounds safety -/

/-- C9. Bounds safety of `read_barrier`: for a window whose up-to-date bitmap
has length `m_page_count`, and `addr`, `size >= 1` with `addr + size - 1` not
overflowing, `m_first_page <= addr >> m_page_shift` and
`(addr + size - 1) >> m_page_shift < m_first_page + m_page_count`, the call with
a null header function returns, every index with which it reads
`m_up_to_date_pages` or calls `refresh_page` is smaller than `m_page_count`, and
the loop makes `last_idx - first_idx + 1` iterations. With a header function
that reports `L >= 1` with `(addr + L - 1) >> m_page_shift < m_first_page +
m_page_count`, on a window that lies inside the address space, the same holds
for both passes together. `refresh_page` is assumed to mark its page up to
date, to make no other page stale and to leave the geometry alone. -/
theorem read_barrier_in_bounds (w : Nat)
    (rp : Nat → EncryptedFileMapping → Option EncryptedFileMapping) (R : RefreshMarksUpToDate rp)
    (G : RefreshKeepsGeometry rp) (fuel : Nat) (st : State) (addr size : Nat)
    (hlen : st.self.m_up_to_date_pages.length = st.self.m_page_count)
    (hcount : st.self.m_page_count < 2 ^ w)
    (hsize : 1 ≤ size)
    (hno : addr + size - 1 < 2 ^ w)
    (hfirst : st.self.m_first_page ≤ addr >>> st.self.m_page_shift)
    (hlastp : (addr + size - 1) >>> st.self.m_page_shift
      < st.self.m_first_page + st.self.m_page_count)
    (hfuel : last_idx w st.self addr size - first_idx w st.self addr + 1 ≤ fuel) :
    first_idx w st.self addr ≤ last_idx w st.self addr size ∧
    (read_barrier w rp fuel st addr size none).status = Status.ok ∧
    (∃ evs, (read_barrier w rp fuel st addr size none).st.trace = st.trace ++ evs ∧
      (∀ i ∈ reads evs, i < st.self.m_page_count) ∧
      (∀ p ∈ refreshes evs, p.1 < st.self.m_page_count) ∧
      (reads evs).length = last_idx w st.self addr size - first_idx w st.self addr + 1) ∧
    ∀ h : Header_to_size,
      (st.self.m_first_page + st.self.m_page_count) * 2 ^ st.self.m_page_shift ≤ 2 ^ w →
      1 ≤ h addr →
      (addr + h addr - 1) >>> st.self.m_page_shift
        < st.self.m_first_page + st.self.m_page_count →
      last_idx w st.self addr (h addr) - first_idx w st.self addr + 1 ≤ fuel →
      (read_barrier w rp fuel st addr size (some h)).status = Status.ok ∧
      ∃ evs, (read_barrier w rp fuel st addr size (some h)).st.trace = st.trace ++ evs ∧
        (∀ i ∈ reads evs, i < st.self.m_page_count) ∧
        (∀ p ∈ refreshes evs, p.1 < st.self.m_page_count) ∧
        (reads evs).length = (last_idx w st.self addr size - first_idx w st.self addr + 1) +
          (last_idx w st.self addr (h addr) - first_idx w st.self addr + 1) := by
  have haddr : addr < 2 ^ w := by omega
  have hf := first_idx_of_in_window w st.self addr haddr hfirst
  have hl := last_idx_of_in_window w st.self addr size hsize hno hfirst
  have hmono : addr >>> st.self.m_page_shift ≤ (addr + size - 1) >>> st.self.m_page_shift :=
    shiftRight_mono _ (by omega)
  have hle : first_idx w st.self addr ≤ last_idx w st.self addr size := by omega
  have hlast : last_idx w st.self addr size < st.self.m_page_count := by omega
  have hfuel1 : last_idx w st.self addr size + 1 - first_idx w st.self addr ≤ fuel := by omega
  have hw : last_idx w st.self addr size + 1 < 2 ^ w := by omega
  obtain ⟨a1, _⟩ := first_pass_total w rp R fuel st addr size hlen
    hcount hlast hfuel1
  obtain ⟨evs1, b1, b2, _, b4⟩ := loop_trace_events R (last_idx w st.self addr size) hw fuel
    (first_idx w st.self addr) st (by omega) hfuel1
  rw [← read_barrier_none] at b1
  refine ⟨hle, a1, ⟨evs1, b1, ?_, ?_, ?_⟩, ?_⟩
  · intro i hi
    rw [b2, List.mem_range'_1] at hi
    omega
  · intro p hp
    have := b4 p hp
    omega
  · rw [b2, List.length_range']
    omega
  · intro h hfits hL hLp hfuelL
    have hnoL : addr + h addr - 1 < 2 ^ w := no_overflow_of_fits w st.self _ hfits hLp
    have hl2 := last_idx_of_in_window w st.self addr (h addr) hL hnoL hfirst
    have hmono2 : addr >>> st.self.m_page_shift
        ≤ (addr + h addr - 1) >>> st.self.m_page_shift := shiftRight_mono _ (by omega)
    have hlast2 : last_idx w st.self addr (h addr) < st.self.m_page_count := by omega
    have hfuel2 : last_idx w st.self addr (h addr) + 1 - first_idx w st.self addr ≤ fuel := by
      omega
    obtain ⟨c1, _⟩ := read_barrier_total w rp R G fuel st addr size h hlen hcount hlast hfuel1
      hlast2 hfuel2
    obtain ⟨e1, e2, d1, d2, d3, d4, d5⟩ := read_barrier_some_trace w rp R G fuel st addr size h
      hlen hcount hlast hfuel1 hlast2 hfuel2
    have hreads : reads (e1 ++
        Event.header_to_size addr (read_barrier w rp fuel st addr size none).st.self :: e2)
        = reads e1 ++ reads e2 := by
      simp [reads, List.filterMap_append]
    have hrefr : refreshes (e1 ++
        Event.header_to_size addr (read_barrier w rp fuel st addr size none).st.self :: e2)
        = refreshes e1 ++ refreshes e2 := by
      simp [refreshes, List.filterMap_append]
    refine ⟨c1, _, by rw [d1, List.append_assoc], ?_, ?_, ?_⟩
    · intro i hi
      rw [hreads, List.mem_append, d2, d3, List.mem_range'_1, List.mem_range'_1] at hi
      omega
    · intro p hp
      rw [hrefr, List.mem_append] at hp
      rcases hp with hp | hp
      · have := d4 p hp
        omega
      · have := d5 p hp
        omega
    · rw [hreads, List.length_append, d2, d3, List.length_range', List.length_range']
      omega

theorem read_barrier_in_bounds_witness :
    RefreshMarksUpToDate refresh_bit ∧ RefreshKeepsGeometry refresh_bit ∧
    state4.self.m_up_to_date_pages.length = state4.self.m_page_count ∧
    state4.self.m_page_count < 2 ^ 64 ∧ 1 ≤ 8 ∧ 65636 + 8 - 1 < 2 ^ 64 ∧
    state4.self.m_first_page ≤ 65636 >>> state4.self.m_page_shift ∧
    (65636 + 8 - 1) >>> state4.self.m_page_shift
      < state4.self.m_first_page + state4.self.m_page_count ∧
    last_idx 64 state4.self 65636 8 - first_idx 64 state4.self 65636 + 1 ≤ 3 ∧
    (read_barrier 64 refresh_bit 3 state4 65636 8 none).status = Status.ok ∧
    (state4.self.m_first_page + state4.self.m_page_count) * 2 ^ state4.self.m_page_shift
      ≤ 2 ^ 64 ∧
    1 ≤ header12000 65636 ∧
    (65636 + header12000 65636 - 1) >>> state4.self.m_page_shift
      < state4.self.m_first_page + state4.self.m_page_count ∧
    last_idx 64 state4.self 65636 (header12000 65636) - first_idx 64 state4.self 65636 + 1
      ≤ 3 ∧
    (read_barrier 64 refresh_bit 3 state4 65636 8 (some header12000)).status = Status.ok ∧
    reads (read_barrier 64 refresh_bit 3 state4 65636 8 (some header12000)).st.trace
      = [0, 0, 1, 2] :=
  ⟨refresh_bit_marks,
    refresh_bit_keeps_geometry,
    by decide, by decide, by decide, by decide, by decide, by decide, by decide,
    (read_barrier_in_bounds 64 refresh_bit
      (refresh_bit_marks)
      (refresh_bit_keeps_geometry) 3 state4 65636 8
      (by decide) (by decide) (by decide) (by decide) (by decide) (by decide)
      (by decide)).2.1,
    by decide, by decide, by decide, by decide,
    ((read_barrier_in_bounds 64 refresh_bit
      (refresh_bit_marks)
      (refresh_bit_keeps_geometry) 3 state4 65636 8
      (by decide) (by decide) (by decide) (by decide) (by decide) (by decide)
      (by decide)).2.2.2 header12000 (by decide) (by decide) (by decide) (by decide)).1,
    by decide⟩

/-! ## Zero-length ranges -/

theorem pred_shiftRight_of_aligned (addr s : Nat) (hnonnull : 1 ≤ addr)
    (haligned : addr % 2 ^ s = 0) :
    1 ≤ addr >>> s ∧ (addr - 1) >>> s = addr >>> s - 1 := by
  have hP : 0 < 2 ^ s := Nat.two_pow_pos s
  rw [Nat.shiftRight_eq_div_pow, Nat.shiftRight_eq_div_pow]
  generalize 2 ^ s = P at hP haligned ⊢
  have hdm := Nat.div_add_mod addr P
  rw [haligned, Nat.add_zero] at hdm
  generalize addr / P = q at hdm ⊢
  cases q with
  | zero =>
    rw [Nat.mul_zero] at hdm
    omega
  | succ q =>
    refine ⟨by omega, Nat.div_eq_of_lt_le ?_ ?_⟩
    · rw [Nat.mul_succ] at hdm
      rw [Nat.add_sub_cancel, Nat.mul_comm]
      omega
    · rw [Nat.add_sub_cancel, Nat.mul_comm]
      omega

theorem zero_length_indices (w : Nat) (m : EncryptedFileMapping) (addr : Nat)
    (haddr : addr < 2 ^ w) (hnonnull : 1 ≤ addr)
    (hpage : addr >>> m.m_page_shift = m.m_first_page)
    (haligned : addr % 2 ^ m.m_page_shift = 0) :
    first_idx w m addr = 0 ∧ last_idx w m addr 0 = 2 ^ w - 1 := by
  obtain ⟨h1, h2⟩ := pred_shiftRight_of_aligned addr m.m_page_shift hnonnull haligned
  have hfp : m.m_first_page < 2 ^ w := by
    rw [← hpage]
    exact lt_of_le_of_lt (shiftRight_le_self _ _) haddr
  constructor
  · unfold first_idx first_accessed_page
    rw [hpage, sub_wrap_of_le (le_refl _) hfp]
    exact Nat.sub_self _
  · unfold last_idx last_accessed_page add_wrap
    rw [Nat.add_zero, Nat.mod_eq_of_lt haddr, sub_wrap_of_le hnonnull haddr, h2, hpage]
    exact sub_wrap_pred_self (by omega) hfp

/-- C10. Zero-length underflow in `read_barrier`: for `size = 0` and a non-null
`addr` that is page-aligned at the first page of the window (`addr >>
m_page_shift = m_first_page` and `addr` a multiple of the page size), the last
page is computed from `addr - 1`, so `first_idx = 0` while `last_idx` wraps to
`2 ^ w - 1`, the largest `size_t`; the loop then walks the whole bitmap and
evaluates `m_up_to_date_pages[m_page_count]`, one past its end. The same
happens in the second pass when the first pass stays inside the window and the
header function returns 0. -/
theorem read_barrier_zero_length_underflow (w : Nat)
    (rp : Nat → EncryptedFileMapping → Option EncryptedFileMapping) (R : RefreshMarksUpToDate rp)
    (G : RefreshKeepsGeometry rp) (fuel : Nat) (st : State) (addr : Nat)
    (hlen : st.self.m_up_to_date_pages.length = st.self.m_page_count)
    (hcount : st.self.m_page_count < 2 ^ w)
    (haddr : addr < 2 ^ w) (hnonnull : 1 ≤ addr)
    (hpage : addr >>> st.self.m_page_shift = st.self.m_first_page)
    (haligned : addr % 2 ^ st.self.m_page_shift = 0)
    (hfuel : st.self.m_page_count < fuel) :
    first_idx w st.self addr = 0 ∧ last_idx w st.self addr 0 = 2 ^ w - 1 ∧
    (read_barrier w rp fuel st addr 0 none).status
      = Status.out_of_bounds st.self.m_page_count ∧
    (∃ tr, (read_barrier w rp fuel st addr 0 none).st.trace
      = tr ++ [Event.read_up_to_date st.self.m_page_count]) ∧
    ∀ (size : Nat) (h : Header_to_size),
      last_idx w st.self addr size < st.self.m_page_count → h addr = 0 →
      (read_barrier w rp fuel st addr size (some h)).status
        = Status.out_of_bounds st.self.m_page_count ∧
      ∃ tr, (read_barrier w rp fuel st addr size (some h)).st.trace
        = tr ++ [Event.read_up_to_date st.self.m_page_count] := by
  obtain ⟨hf, hl⟩ := zero_length_indices w st.self addr haddr hnonnull hpage haligned
  have hle : st.self.m_page_count ≤ 2 ^ w - 1 := by omega
  refine ⟨hf, hl, ?_, ?_, ?_⟩
  · rw [read_barrier_none, hf, hl]
    exact (loop_runs_off_the_end R (2 ^ w - 1) st.self.m_page_count hcount hle fuel 0 st hlen
      (Nat.zero_le _) (by omega)).1
  · rw [read_barrier_none, hf, hl]
    exact (loop_runs_off_the_end R (2 ^ w - 1) st.self.m_page_count hcount hle fuel 0 st hlen
      (Nat.zero_le _) (by omega)).2
  · intro size h hlast hzero
    have hw : last_idx w st.self addr size + 1 < 2 ^ w := by omega
    have hnone := read_barrier_none w rp fuel st addr size
    obtain ⟨a1, a2, _, _⟩ := loop_total R (last_idx w st.self addr size) hw fuel
      (first_idx w st.self addr) st (by omega) (by omega)
    obtain ⟨g1, g2, _⟩ := loop_geometry (w := w) G (last_idx w st.self addr size) fuel
      (first_idx w st.self addr) st
    rw [← hnone] at a1 a2 g1 g2
    rw [read_barrier_some w rp fuel st addr size h a1, last_idx_congr w addr (h addr) g1 g2,
      hzero, hf, hl]
    exact loop_runs_off_the_end R (2 ^ w - 1) st.self.m_page_count hcount hle fuel 0
      (header_step addr (read_barrier w rp fuel st addr size none).st)
      (by simp only [header_step, a2]; exact hlen) (Nat.zero_le _) (by omega)

theorem read_barrier_zero_length_underflow_witness :
    RefreshMarksUpToDate refresh_bit ∧ RefreshKeepsGeometry refresh_bit ∧
    state4.self.m_up_to_date_pages.length = state4.self.m_page_count ∧
    state4.self.m_page_count < 2 ^ 64 ∧ 65536 < 2 ^ 64 ∧ 1 ≤ 65536 ∧
    65536 >>> state4.self.m_page_shift = state4.self.m_first_page ∧
    65536 % 2 ^ state4.self.m_page_shift = 0 ∧ state4.self.m_page_count < 5 ∧
    first_idx 64 state4.self 65536 = 0 ∧
    last_idx 64 state4.self 65536 0 = 18446744073709551615 ∧
    (read_barrier 64 refresh_bit 5 state4 65536 0 none).status = Status.out_of_bounds 4 ∧
    reads (read_barrier 64 refresh_bit 5 state4 65536 0 none).st.trace = [0, 1, 2, 3, 4] ∧
    (read_barrier 64 refresh_bit 5 state4 65536 8 (some fun _ => 0)).status
      = Status.out_of_bounds 4 :=
  ⟨refresh_bit_marks,
    refresh_bit_keeps_geometry,
    by decide, by decide, by decide, by decide, by decide, by decide, by decide,
    (read_barrier_zero_length_underflow 64 refresh_bit
      (refresh_bit_marks)
      (refresh_bit_keeps_geometry) 5 state4 65536
      (by decide) (by decide) (by decide) (by decide) (by decide) (by decide)
      (by decide)).1,
    by decide, by decide, by decide, by decide⟩

/-! ## The CryptoEngine: what a write leaves in the file -/

theorem write_block_key (c : Cipher) (cr : AESCryptor) (fd : List StoredBlock) (blk : Nat)
    (src : Block) : (AESCryptor.write_block c cr fd blk src).1.key = cr.key := rfl

theorem write_block_length (c : Cipher) (cr : AESCryptor) (fd : List StoredBlock) (blk : Nat)
    (src : Block) : (AESCryptor.write_block c cr fd blk src).2.length = fd.length := by
  simp [AESCryptor.write_block]

theorem write_block_other (c : Cipher) (cr : AESCryptor) (fd : List StoredBlock) (blk : Nat)
    (src : Block) (q : Nat) (hq : q ≠ blk) :
    (AESCryptor.write_block c cr fd blk src).2[q]? = fd[q]? := by
  simp [AESCryptor.write_block, List.getElem?_set, Ne.symm hq]

theorem write_block_holds (c : Cipher) (hc : c.Correct) (cr : AESCryptor)
    (fd : List StoredBlock) (blk : Nat) (src : Block) (hblk : blk < fd.length) :
    holds c cr.key (AESCryptor.write_block c cr fd blk src).2 blk src := by
  refine ⟨⟨AESCryptor.next_iv c cr blk, c.tag cr.key (AESCryptor.next_iv c cr blk)
      (c.encrypt cr.key (AESCryptor.next_iv c cr blk) src) blk⟩,
    c.encrypt cr.key (AESCryptor.next_iv c cr blk) src, ?_, rfl, hc _ _ _⟩
  simp [AESCryptor.write_block, List.getElem?_set, hblk]

theorem write_spec (c : Cipher) (hc : c.Correct) :
    ∀ (bs : List Block) (cr : AESCryptor) (fd : List StoredBlock) (pos : Nat),
      (AESCryptor.write c cr fd pos bs).1.key = cr.key ∧
      (AESCryptor.write c cr fd pos bs).2.length = fd.length ∧
      (∀ q : Nat, (q < pos ∨ pos + bs.length ≤ q) →
        (AESCryptor.write c cr fd pos bs).2[q]? = fd[q]?) ∧
      (pos + bs.length ≤ fd.length → ∀ (t : Nat) (b : Block), bs[t]? = some b →
        holds c cr.key (AESCryptor.write c cr fd pos bs).2 (pos + t) b) := by
  intro bs
  induction bs with
  | nil =>
    intro cr fd pos
    refine ⟨rfl, rfl, fun _ _ => rfl, ?_⟩
    intro _ t b hb
    simp at hb
  | cons b0 bs ih =>
    intro cr fd pos
    obtain ⟨k1, k2, k3, k4⟩ := ih (AESCryptor.write_block c cr fd pos b0).1
      (AESCryptor.write_block c cr fd pos b0).2 (pos + 1)
    rw [write_block_key] at k1 k4
    rw [write_block_length] at k2 k4
    simp only [AESCryptor.write, List.length_cons]
    refine ⟨k1, k2, ?_, ?_⟩
    · intro q hq
      rw [k3 q (by omega), write_block_other c cr fd pos b0 q (by omega)]
    · intro hfit t b hb
      cases t with
      | zero =>
        simp only [List.getElem?_cons_zero, Option.some.injEq] at hb
        subst hb
        obtain ⟨e, data, h1, h2, h3⟩ := write_block_holds c hc cr fd pos b0 (by omega)
        exact ⟨e, data, (k3 pos (Or.inl (by omega))).trans h1, h2, h3⟩
      | succ t =>
        simp only [List.getElem?_cons_succ] at hb
        have := k4 (by omega) t b hb
        rw [Nat.add_assoc, Nat.add_comm 1 t] at this
        exact this

theorem try_read_block_of_holds (c : Cipher) (key : List Nat) (fd : List StoredBlock)
    (blk : Nat) (b : Block) (h : holds c key fd blk b) :
    AESCryptor.try_read_block c { key := key, m_iv_buffer := fd.map fun sb => sb.entry } fd blk
      = some b := by
  obtain ⟨e, data, h1, h2, h3⟩ := h
  simp [AESCryptor.try_read_block, h1, h2, h3]

theorem try_read_of_blocks (c : Cipher) (cr : AESCryptor) (fd : List StoredBlock) :
    ∀ (p : List Block) (pos : Nat),
      (∀ (t : Nat) (b : Block), p[t]? = some b →
        AESCryptor.try_read_block c cr fd (pos + t) = some b) →
      AESCryptor.try_read c cr fd pos p.length = some p := by
  intro p
  induction p with
  | nil =>
    intro pos _
    rfl
  | cons b0 p ih =>
    intro pos h
    have h0 := h 0 b0 (by simp)
    rw [Nat.add_zero] at h0
    have hrest := ih (pos + 1) (by
      intro t b hb
      have := h (t + 1) b (by simpa using hb)
      rw [Nat.add_assoc, Nat.add_comm 1 t]
      exact this)
    simp [AESCryptor.try_read, h0, hrest]

/-! ## `flush`: what the dirty pages leave in the file -/

theorem holds_congr (c : Cipher) (key : List Nat) {fd fd2 : List StoredBlock} {q : Nat}
    {b : Block} (h : fd2[q]? = fd[q]?) (hh : holds c key fd q b) : holds c key fd2 q b := by
  obtain ⟨e, data, h1, h2, h3⟩ := hh
  exact ⟨e, data, h.trans h1, h2, h3⟩

theorem block_ranges_disjoint (off bpp i j t : Nat) (hne : i ≠ j) (ht : t < bpp) :
    (off + i) * bpp + t < (off + j) * bpp ∨ (off + j) * bpp + bpp ≤ (off + i) * bpp + t := by
  rcases Nat.lt_or_gt_of_ne hne with h | h
  · left
    have h1 : (off + i + 1) * bpp ≤ (off + j) * bpp := Nat.mul_le_mul_right bpp (by omega)
    rw [Nat.succ_mul] at h1
    omega
  · right
    have h1 : (off + j + 1) * bpp ≤ (off + i) * bpp := Nat.mul_le_mul_right bpp (by omega)
    rw [Nat.succ_mul] at h1
    omega

theorem flush_pages_cons_write (c : Cipher) (m : EncryptedFileMapping) (i : Nat)
    (rest : List Nat) (s : AESCryptor × List StoredBlock) (p : List Block)
    (hd : m.m_dirty_pages[i]? = some true) (hm : m.memory[i]? = some p) :
    flush_pages c m (i :: rest) s =
      flush_pages c m rest (AESCryptor.write c s.1 s.2 (m.first_block i) p) := by
  simp [flush_pages, hd, hm]

theorem flush_pages_cons_skip (c : Cipher) (m : EncryptedFileMapping) (i : Nat)
    (rest : List Nat) (s : AESCryptor × List StoredBlock)
    (h : ¬ (m.m_dirty_pages[i]? = some true ∧ ∃ p, m.memory[i]? = some p)) :
    flush_pages c m (i :: rest) s = flush_pages c m rest s := by
  cases hd : m.m_dirty_pages[i]? with
  | none => simp [flush_pages, hd]
  | some d =>
    cases d with
    | false => simp [flush_pages, hd]
    | true =>
      cases hm : m.memory[i]? with
      | none => simp [flush_pages, hd, hm]
      | some p => exact absurd ⟨hd, p, hm⟩ h

theorem flush_pages_clean (c : Cipher) (m : EncryptedFileMapping)
    (hclean : ∀ i : Nat, m.m_dirty_pages[i]? ≠ some true) :
    ∀ (pages : List Nat) (s : AESCryptor × List StoredBlock), flush_pages c m pages s = s := by
  intro pages
  induction pages with
  | nil => intro s; rfl
  | cons i rest ih =>
    intro s
    rw [flush_pages_cons_skip c m i rest s (fun h => hclean i h.1), ih]

theorem flush_pages_spec (c : Cipher) (hc : c.Correct) (m : EncryptedFileMapping)
    (hpages : ∀ (i : Nat) (p : List Block), m.memory[i]? = some p →
      p.length = m.m_blocks_per_page) :
    ∀ (pages : List Nat) (cr : AESCryptor) (fd : List StoredBlock), pages.Nodup →
      (∀ i ∈ pages, m.first_block i + m.m_blocks_per_page ≤ fd.length) →
      (flush_pages c m pages (cr, fd)).1.key = cr.key ∧
      (flush_pages c m pages (cr, fd)).2.length = fd.length ∧
      (∀ q : Nat, (∀ i ∈ pages, q < m.first_block i ∨
          m.first_block i + m.m_blocks_per_page ≤ q) →
        (flush_pages c m pages (cr, fd)).2[q]? = fd[q]?) ∧
      (∀ i ∈ pages, m.m_dirty_pages[i]? = some true → ∀ p : List Block,
        m.memory[i]? = some p → ∀ (t : Nat) (b : Block), p[t]? = some b →
        holds c cr.key (flush_pages c m pages (cr, fd)).2 (m.first_block i + t) b) := by
  intro pages
  induction pages with
  | nil =>
    intro cr fd _ _
    exact ⟨rfl, rfl, fun _ _ => rfl, fun i hi => absurd hi (List.not_mem_nil i)⟩
  | cons i0 rest ih =>
    intro cr fd hnd hfit
    have hnd2 : rest.Nodup := (List.nodup_cons.mp hnd).2
    have hi0 : i0 ∉ rest := (List.nodup_cons.mp hnd).1
    by_cases hw : m.m_dirty_pages[i0]? = some true ∧ ∃ p, m.memory[i0]? = some p
    · obtain ⟨hd, p0, hm⟩ := hw
      have hlen0 := hpages i0 p0 hm
      rw [flush_pages_cons_write c m i0 rest (cr, fd) p0 hd hm]
      obtain ⟨w1, w2, w3, w4⟩ := write_spec c hc p0 cr fd (m.first_block i0)
      obtain ⟨k1, k2, k3, k4⟩ := ih (AESCryptor.write c cr fd (m.first_block i0) p0).1
        (AESCryptor.write c cr fd (m.first_block i0) p0).2 hnd2
        (by
          intro i hi
          rw [w2]
          exact hfit i (List.mem_cons_of_mem _ hi))
      refine ⟨k1.trans w1, k2.trans w2, ?_, ?_⟩
      · intro q hq
        rw [k3 q (fun i hi => hq i (List.mem_cons_of_mem _ hi))]
        have := hq i0 (List.mem_cons_self _ _)
        exact w3 q (by rw [hlen0]; exact this)
      · intro i hi hdi p hp t b hb
        rcases List.mem_cons.mp hi with rfl | hi
        · rw [hm] at hp
          cases hp
          have ht : t < m.m_blocks_per_page := by
            rw [← hlen0]
            by_contra hcon
            rw [List.getElem?_eq_none (by omega)] at hb
            cases hb
          have hfit0 := hfit i (List.mem_cons_self _ _)
          have h0 := w4 (by rw [hlen0]; exact hfit0) t b hb
          refine holds_congr c cr.key (k3 _ ?_) h0
          intro j hj
          have hne : i ≠ j := fun h => hi0 (h ▸ hj)
          exact block_ranges_disjoint _ _ i j t hne ht
        · have := k4 i hi hdi p hp t b hb
          rw [w1] at this
          exact this
    · rw [flush_pages_cons_skip c m i0 rest (cr, fd) hw]
      obtain ⟨k1, k2, k3, k4⟩ := ih cr fd hnd2 (fun i hi => hfit i (List.mem_cons_of_mem _ hi))
      refine ⟨k1, k2, fun q hq => k3 q (fun i hi => hq i (List.mem_cons_of_mem _ hi)), ?_⟩
      intro i hi hdi p hp t b hb
      rcases List.mem_cons.mp hi with rfl | hi
      · exact absurd ⟨hdi, p, hp⟩ hw
      · exact k4 i hi hdi p hp t b hb

/-! ## `write_barrier` and `flush` on the registered windows -/

theorem write_barrier_self (w : Nat) (file : SharedFileInfo) (k addr size : Nat)
    (m : EncryptedFileMapping) (hm : file.mappings[k]? = some m) :
    (write_barrier w file k addr size).mappings[k]? =
      some (mark_dirty (first_idx w m addr) (last_idx w m addr size) m) ∧
    (write_barrier w file k addr size).fd = file.fd ∧
    (write_barrier w file k addr size).cryptor = file.cryptor := by
  simp [write_barrier, hm, List.getElem?_mapIdx]

theorem write_barrier_other (w : Nat) (file : SharedFileInfo) (k addr size : Nat)
    (m : EncryptedFileMapping) (hm : file.mappings[k]? = some m)
    (n : Nat) (s : EncryptedFileMapping) (hn : n ≠ k) (hs : file.mappings[n]? = some s) :
    (write_barrier w file k addr size).mappings[n]? =
      some (notify_dirty (m.file_page (first_idx w m addr))
        (m.file_page (last_idx w m addr size)) s) := by
  simp [write_barrier, hm, List.getElem?_mapIdx, hs, hn]

theorem write_barrier_none_of_none (w : Nat) (file : SharedFileInfo) (k addr size : Nat)
    (n : Nat) (hs : file.mappings[n]? = none) :
    (write_barrier w file k addr size).mappings[n]? = none := by
  unfold write_barrier
  split
  · exact hs
  · simp [List.getElem?_mapIdx, hs]

theorem mark_dirty_get (first last : Nat) (m : EncryptedFileMapping) (j : Nat)
    (h1 : first ≤ j) (h2 : j ≤ last) (h3 : j < m.m_dirty_pages.length) :
    (mark_dirty first last m).m_dirty_pages[j]? = some true := by
  simp [mark_dirty, List.getElem?_mapIdx, List.getElem?_eq_getElem h3, h1, h2]

theorem notify_dirty_get (first_fp last_fp : Nat) (s : EncryptedFileMapping) (j : Nat)
    (h1 : first_fp ≤ s.file_page j) (h2 : s.file_page j ≤ last_fp) :
    (notify_dirty first_fp last_fp s).m_up_to_date_pages[j]? ≠ some true := by
  simp only [notify_dirty, List.getElem?_mapIdx]
  cases s.m_up_to_date_pages[j]? with
  | none => simp
  | some u => simp [h1, h2]

theorem flush_fd (c : Cipher) (file : SharedFileInfo) (k : Nat) (m : EncryptedFileMapping)
    (hm : file.mappings[k]? = some m) :
    (flush c file k).fd
      = (flush_pages c m (List.range m.m_page_count) (file.cryptor, file.fd)).2 ∧
    (flush c file k).cryptor
      = (flush_pages c m (List.range m.m_page_count) (file.cryptor, file.fd)).1 ∧
    (flush c file k).mappings = file.mappings.set k
      { m with m_dirty_pages := m.m_dirty_pages.map fun _ => false } := by
  simp [flush, hm]

theorem flush_of_none (c : Cipher) (file : SharedFileInfo) (k : Nat)
    (hm : file.mappings[k]? = none) : flush c file k = file := by
  simp [flush, hm]

theorem flush_other (c : Cipher) (file : SharedFileInfo) (k n : Nat) (hn : n ≠ k) :
    (flush c file k).mappings[n]? = file.mappings[n]? := by
  cases hm : file.mappings[k]? with
  | none => rw [flush_of_none c file k hm]
  | some m =>
    rw [(flush_fd c file k m hm).2.2]
    simp [List.getElem?_set, Ne.symm hn]

theorem flush_self (c : Cipher) (file : SharedFileInfo) (k : Nat) (m : EncryptedFileMapping)
    (hm : file.mappings[k]? = some m) :
    (flush c file k).mappings[k]?
      = some { m with m_dirty_pages := m.m_dirty_pages.map fun _ => false } := by
  rw [(flush_fd c file k m hm).2.2]
  have hk : k < file.mappings.length := by
    by_contra hcon
    rw [List.getElem?_eq_none (by omega)] at hm
    cases hm
  simp [List.getElem?_set, hk]

/-- After `flush` and `sync` the file holds, for every block of every page that
was dirty, an authentic encryption of the plaintext of the window. -/
theorem sync_flush_holds (c : Cipher) (hc : c.Correct) (file : SharedFileInfo) (k : Nat)
    (m : EncryptedFileMapping) (hm : file.mappings[k]? = some m)
    (hpages : ∀ (i : Nat) (p : List Block), m.memory[i]? = some p →
      p.length = m.m_blocks_per_page)
    (hfile : m.file_page m.m_page_count * m.m_blocks_per_page ≤ file.fd.length)
    (i : Nat) (hi : i < m.m_page_count) (hd : m.m_dirty_pages[i]? = some true)
    (p : List Block) (hp : m.memory[i]? = some p) (t : Nat) (b : Block) (hb : p[t]? = some b) :
    holds c file.cryptor.key (sync c (flush c file k) k).fd (m.first_block i + t) b := by
  have hfit : ∀ j ∈ List.range m.m_page_count,
      m.first_block j + m.m_blocks_per_page ≤ file.fd.length := by
    intro j hj
    have hj2 : j < m.m_page_count := List.mem_range.mp hj
    have h1 : (m.file_page j + 1) * m.m_blocks_per_page
        ≤ m.file_page m.m_page_count * m.m_blocks_per_page :=
      Nat.mul_le_mul_right _ (by simp only [EncryptedFileMapping.file_page]; omega)
    rw [Nat.succ_mul] at h1
    exact le_trans h1 hfile
  obtain ⟨_, _, _, k4⟩ := flush_pages_spec c hc m hpages (List.range m.m_page_count)
    file.cryptor file.fd (List.nodup_range _) hfit
  have h1 := k4 i (List.mem_range.mpr hi) hd p hp t b hb
  rw [← (flush_fd c file k m hm).1] at h1
  have hself := flush_self c file k m hm
  unfold sync
  rw [(flush_fd c (flush c file k) k _ hself).1]
  rw [flush_pages_clean c _ (by
    intro j
    simp only [List.getElem?_map]
    cases m.m_dirty_pages[j]? <;> simp)]
  exact h1

/-! ## `refresh_page` and the plaintext of the window -/

theorem refresh_page_of_copy (c : Cipher) (file : SharedFileInfo) (k i : Nat)
    (m : EncryptedFileMapping) (p : List Block)
    (hs : sibling_copy k (m.file_page i) 0 file.mappings = some p) :
    refresh_page c file k i m = some (refreshed i p m) := by
  simp [refresh_page, copy_up_to_date_page, hs, refreshed]

theorem refresh_page_of_read (c : Cipher) (file : SharedFileInfo) (k i : Nat)
    (m : EncryptedFileMapping) (p : List Block)
    (hs : sibling_copy k (m.file_page i) 0 file.mappings = none)
    (hr : AESCryptor.read c file.cryptor file.fd (m.first_block i) m.m_blocks_per_page
      = some p) :
    refresh_page c file k i m = some (refreshed i p m) := by
  simp [refresh_page, copy_up_to_date_page, hs, hr, refreshed]

/-- A call of `read_barrier` whose refreshes deliver the plaintext `E i` for
every page `i` of the range leaves that plaintext in the memory of the window,
for every page of the range that was stale on entry or held it already. -/
theorem read_barrier_fills (w : Nat)
    (rp : Nat → EncryptedFileMapping → Option EncryptedFileMapping)
    (fuel : Nat) (st : State) (addr size : Nat) (E : Nat → Option (List Block))
    (hrp : ∀ i m, m.m_file_offset = st.self.m_file_offset →
      m.m_page_shift = st.self.m_page_shift →
      m.m_blocks_per_page = st.self.m_blocks_per_page →
      first_idx w st.self addr ≤ i → i ≤ last_idx w st.self addr size →
      ∃ p, E i = some p ∧ rp i m = some (refreshed i p m))
    (hinit : ∀ j : Nat, first_idx w st.self addr ≤ j → j ≤ last_idx w st.self addr size →
      st.self.m_up_to_date_pages[j]? = some true → st.self.memory[j]? = E j)
    (hlen : st.self.m_up_to_date_pages.length = st.self.m_page_count)
    (hmem : st.self.memory.length = st.self.m_page_count)
    (hcount : st.self.m_page_count < 2 ^ w)
    (hlast : last_idx w st.self addr size < st.self.m_page_count)
    (hfuel : last_idx w st.self addr size + 1 - first_idx w st.self addr ≤ fuel) :
    (read_barrier w rp fuel st addr size none).status = Status.ok ∧
    ∀ j : Nat, first_idx w st.self addr ≤ j → j ≤ last_idx w st.self addr size →
      (read_barrier w rp fuel st addr size none).st.self.m_up_to_date_pages[j]? = some true ∧
      (read_barrier w rp fuel st addr size none).st.self.memory[j]? = E j := by
  have hw : last_idx w st.self addr size + 1 < 2 ^ w := by omega
  rw [read_barrier_none]
  have hstep : ∀ i m,
      (m.m_file_offset = st.self.m_file_offset ∧ m.m_page_shift = st.self.m_page_shift ∧
        m.m_blocks_per_page = st.self.m_blocks_per_page ∧
        m.memory.length = st.self.m_page_count ∧
        ∀ j : Nat, first_idx w st.self addr ≤ j → j ≤ last_idx w st.self addr size →
          m.m_up_to_date_pages[j]? = some true → m.memory[j]? = E j) →
      first_idx w st.self addr ≤ i → i ≤ last_idx w st.self addr size →
      m.m_up_to_date_pages[i]? = some false →
      ∃ m2, rp i m = some m2 ∧
        (m2.m_file_offset = st.self.m_file_offset ∧ m2.m_page_shift = st.self.m_page_shift ∧
          m2.m_blocks_per_page = st.self.m_blocks_per_page ∧
          m2.memory.length = st.self.m_page_count ∧
          ∀ j : Nat, first_idx w st.self addr ≤ j → j ≤ last_idx w st.self addr size →
            m2.m_up_to_date_pages[j]? = some true → m2.memory[j]? = E j) ∧
        m2.m_up_to_date_pages.length = m.m_up_to_date_pages.length ∧
        m2.m_up_to_date_pages[i]? = some true ∧
        ∀ j : Nat, m.m_up_to_date_pages[j]? = some true →
          m2.m_up_to_date_pages[j]? = some true := by
    rintro i m ⟨g1, g2, g3, g4, g5⟩ hi1 hi2 hb
    obtain ⟨p, hE, hr⟩ := hrp i m g1 g2 g3 hi1 hi2
    have hi : i < m.m_up_to_date_pages.length := by
      by_contra hcon
      rw [List.getElem?_eq_none (by omega)] at hb
      cases hb
    refine ⟨refreshed i p m, hr, ⟨g1, g2, g3, ?_, ?_⟩, ?_, ?_, ?_⟩
    · simp [refreshed, mark_up_to_date, g4]
    · intro j hj1 hj2 hj3
      by_cases hji : i = j
      · subst hji
        simp [refreshed, mark_up_to_date, List.getElem?_set, g4, hE]
        omega
      · have hj4 : m.m_up_to_date_pages[j]? = some true := by
          simpa [refreshed, mark_up_to_date, List.getElem?_set, hji] using hj3
        have := g5 j hj1 hj2 hj4
        simpa [refreshed, mark_up_to_date, List.getElem?_set, hji] using this
    · simp [refreshed, mark_up_to_date]
    · simp [refreshed, mark_up_to_date, List.getElem?_set, hi]
    · intro j hj
      by_cases hji : i = j
      · subst hji
        rw [hb] at hj
        cases hj
      · simpa [refreshed, mark_up_to_date, List.getElem?_set, hji] using hj
  obtain ⟨h1, hI, _, h3, _⟩ := loop_total_on
    (fun m => m.m_file_offset = st.self.m_file_offset ∧ m.m_page_shift = st.self.m_page_shift ∧
        m.m_blocks_per_page = st.self.m_blocks_per_page ∧
        m.memory.length = st.self.m_page_count ∧
        ∀ j : Nat, first_idx w st.self addr ≤ j → j ≤ last_idx w st.self addr size →
          m.m_up_to_date_pages[j]? = some true → m.memory[j]? = E j)
    (first_idx w st.self addr) (last_idx w st.self addr size) hw hstep fuel
    (first_idx w st.self addr) st (le_refl _) ⟨rfl, rfl, rfl, hmem, hinit⟩ (by omega) hfuel
  exact ⟨h1, fun j hj1 hj2 => ⟨h3 j hj1 hj2, hI.2.2.2.2 j hj1 hj2 (h3 j hj1 hj2)⟩⟩

/-! ## Round trip through the file -/

theorem reopen_mappings (key : List Nat) (fd : List StoredBlock) (W : EncryptedFileMapping)
    (mem0 : List (List Block)) :
    (reopen key fd W mem0).mappings = [fresh_window W mem0] ∧
    (reopen key fd W mem0).fd = fd ∧
    (reopen key fd W mem0).cryptor = { key := key, m_iv_buffer := fd.map fun sb => sb.entry } := by
  simp [reopen, EncryptedFileMapping.create, SharedFileInfo.create, fresh_window]

theorem fresh_window_indices (w : Nat) (W : EncryptedFileMapping) (mem0 : List (List Block))
    (addr size : Nat) (hfp : W.m_first_page = W.m_addr >>> W.m_page_shift) :
    first_idx w (fresh_window W mem0) addr = first_idx w W addr ∧
    last_idx w (fresh_window W mem0) addr size = last_idx w W addr size := by
  simp [first_idx, last_idx, first_accessed_page, last_accessed_page, fresh_window, hfp]

/-- C5. Round trip: a window `W` of the file holds plaintext in the pages
touched by `[addr, addr + size)`; after `write_barrier` over that range, `flush`
and `sync`, the file is opened again with the same key and a fresh window with
the same geometry, whatever its memory holds, is `read_barrier`'d over the same
range. The call returns and every page of the range is up to date and holds the
bytes that `W` held. The cipher is assumed to decrypt what it encrypted, the
pages of `W` to consist of `m_blocks_per_page` blocks and the window to lie
inside the file. -/
theorem round_trip (c : Cipher) (hc : c.Correct) (w fuel : Nat) (file : SharedFileInfo)
    (k : Nat) (W : EncryptedFileMapping) (addr size : Nat) (mem0 : List (List Block))
    (lock : UniqueLock)
    (hW : file.mappings[k]? = some W)
    (hfp : W.m_first_page = W.m_addr >>> W.m_page_shift)
    (hcount : W.m_page_count < 2 ^ w)
    (hdirty : W.m_dirty_pages.length = W.m_page_count)
    (hmem : W.memory.length = W.m_page_count)
    (hpages : ∀ p ∈ W.memory, p.length = W.m_blocks_per_page)
    (hfile : W.file_page W.m_page_count * W.m_blocks_per_page ≤ file.fd.length)
    (hmem0 : mem0.length = W.m_page_count)
    (hlast : last_idx w W addr size < W.m_page_count)
    (hfuel : last_idx w W addr size + 1 - first_idx w W addr ≤ fuel) :
    (reopen file.cryptor.key
        (sync c (flush c (write_barrier w file k addr size) k) k).fd W mem0).mappings
      = [fresh_window W mem0] ∧
    (read_barrier w
      (refresh_page c (reopen file.cryptor.key
        (sync c (flush c (write_barrier w file k addr size) k) k).fd W mem0) 0)
      fuel ⟨fresh_window W mem0, lock, []⟩ addr size none).status = Status.ok ∧
    ∀ j : Nat, first_idx w W addr ≤ j → j ≤ last_idx w W addr size →
      (read_barrier w
        (refresh_page c (reopen file.cryptor.key
          (sync c (flush c (write_barrier w file k addr size) k) k).fd W mem0) 0)
        fuel ⟨fresh_window W mem0, lock, []⟩ addr size none).st.self.m_up_to_date_pages[j]?
        = some true ∧
      (read_barrier w
        (refresh_page c (reopen file.cryptor.key
          (sync c (flush c (write_barrier w file k addr size) k) k).fd W mem0) 0)
        fuel ⟨fresh_window W mem0, lock, []⟩ addr size none).st.self.memory[j]?
        = W.memory[j]? := by
  obtain ⟨hmaps, hfd, hcr⟩ := reopen_mappings file.cryptor.key
    (sync c (flush c (write_barrier w file k addr size) k) k).fd W mem0
  obtain ⟨hf, hl⟩ := fresh_window_indices w W mem0 addr size hfp
  obtain ⟨wb1, wb2, wb3⟩ := write_barrier_self w file k addr size W hW
  refine ⟨hmaps, ?_⟩
  have key := read_barrier_fills w
    (refresh_page c (reopen file.cryptor.key
      (sync c (flush c (write_barrier w file k addr size) k) k).fd W mem0) 0)
    fuel ⟨fresh_window W mem0, lock, []⟩ addr size (fun j => W.memory[j]?) ?_ ?_
    (by simp [fresh_window]) hmem0 hcount (by rw [hl]; exact hlast) (by rw [hl, hf]; exact hfuel)
  · rw [hf, hl] at key
    exact key
  · intro i m g1 g2 g3 hi1 hi2
    rw [hf] at hi1
    rw [hl] at hi2
    have hi : i < W.m_page_count := by omega
    have hiW : i < W.memory.length := by omega
    refine ⟨W.memory[i], List.getElem?_eq_getElem hiW, ?_⟩
    apply refresh_page_of_read
    · rw [hmaps]
      simp [sibling_copy]
    · rw [hfd, hcr]
      have hplen : (W.memory[i]).length = W.m_blocks_per_page :=
        hpages _ (List.getElem_mem hiW)
      have g3b : m.m_blocks_per_page = (W.memory[i]).length := by
        rw [hplen, g3]
        rfl
      rw [g3b]
      unfold AESCryptor.read
      apply try_read_of_blocks
      intro t b hb
      apply try_read_block_of_holds
      have hfb : m.first_block i
          = (mark_dirty (first_idx w W addr) (last_idx w W addr size) W).first_block i := by
        simp only [EncryptedFileMapping.first_block, EncryptedFileMapping.file_page, g1, g2, g3,
          mark_dirty, fresh_window]
      rw [hfb, ← wb3]
      refine sync_flush_holds c hc (write_barrier w file k addr size) k
        (mark_dirty (first_idx w W addr) (last_idx w W addr size) W) wb1 ?_ ?_ i hi ?_
        W.memory[i] (List.getElem?_eq_getElem hiW) t b hb
      · intro i2 p hp
        exact hpages p (List.getElem?_mem hp)
      · rw [wb2]
        exact hfile
      · exact mark_dirty_get _ _ W i hi1 hi2 (by omega)
  · intro j _ _ hj
    simp [fresh_window, List.getElem?_replicate] at hj

/-! ## Coherence between windows -/

theorem sibling_copy_of_unique (k fp a : Nat) (p : List Block) (hak : a ≠ k) :
    ∀ (l : List EncryptedFileMapping) (n0 : Nat), n0 ≤ a →
      (∃ s, l[a - n0]? = some s ∧ up_to_date_page s fp = some p) →
      (∀ (i : Nat) (s : EncryptedFileMapping), l[i]? = some s → n0 + i ≠ a → n0 + i ≠ k →
        up_to_date_page s fp = none) →
      sibling_copy k fp n0 l = some p := by
  intro l
  induction l with
  | nil =>
    rintro n0 _ ⟨s, hs, _⟩ _
    simp at hs
  | cons s0 rest ih =>
    rintro n0 hn0 ⟨s, hs, hp⟩ hothers
    have hrest : ∀ (i : Nat) (s : EncryptedFileMapping), rest[i]? = some s →
        n0 + 1 + i ≠ a → n0 + 1 + i ≠ k → up_to_date_page s fp = none := by
      intro i s2 hs2 h1 h2
      exact hothers (i + 1) s2 (by simpa using hs2) (by omega) (by omega)
    by_cases hk : n0 = k
    · have hlt : n0 < a := by omega
      have hs2 : rest[a - (n0 + 1)]? = some s := by
        have : a - n0 = (a - (n0 + 1)) + 1 := by omega
        rw [this] at hs
        simpa using hs
      have e : sibling_copy k fp n0 (s0 :: rest) = sibling_copy k fp (n0 + 1) rest := by
        simp [sibling_copy, hk]
      rw [e]
      exact ih (n0 + 1) (by omega) ⟨s, hs2, hp⟩ hrest
    · by_cases ha : n0 = a
      · have hs0 : s0 = s := by
          rw [ha, Nat.sub_self] at hs
          simpa using hs
        simp [sibling_copy, hk, hs0, hp]
      · have hlt : n0 < a := by omega
        have hs2 : rest[a - (n0 + 1)]? = some s := by
          have : a - n0 = (a - (n0 + 1)) + 1 := by omega
          rw [this] at hs
          simpa using hs
        have h0 := hothers 0 s0 (by simp) (by omega) (by omega)
        have e : sibling_copy k fp n0 (s0 :: rest) = sibling_copy k fp (n0 + 1) rest := by
          simp [sibling_copy, hk, h0]
        rw [e]
        exact ih (n0 + 1) (by omega) ⟨s, hs2, hp⟩ hrest

theorem up_to_date_page_notified (first_fp last_fp fp : Nat) (s : EncryptedFileMapping)
    (h1 : first_fp ≤ fp) (h2 : fp ≤ last_fp) :
    up_to_date_page (notify_dirty first_fp last_fp s) fp = none := by
  unfold up_to_date_page
  split
  · next hoff =>
    have hoff2 : s.m_file_offset >>> s.m_page_shift ≤ fp := hoff
    have hne := notify_dirty_get first_fp last_fp s (fp - (s.m_file_offset >>> s.m_page_shift))
      (by simp only [EncryptedFileMapping.file_page]; omega)
      (by simp only [EncryptedFileMapping.file_page]; omega)
    split
    · next heq => exact absurd heq hne
    · rfl
  · rfl

theorem after_write_other (c : Cipher) (w : Nat) (file : SharedFileInfo) (a addr size : Nat)
    (flushed : Bool) (W1 : EncryptedFileMapping) (h1 : file.mappings[a]? = some W1)
    (n : Nat) (hn : n ≠ a) (s : EncryptedFileMapping)
    (hs : (after_write c w file a addr size flushed).mappings[n]? = some s) :
    ∃ s0, file.mappings[n]? = some s0 ∧
      s = notify_dirty (W1.file_page (first_idx w W1 addr))
        (W1.file_page (last_idx w W1 addr size)) s0 := by
  have hs1 : (write_barrier w file a addr size).mappings[n]? = some s := by
    cases flushed with
    | true =>
      simp only [after_write, if_true] at hs
      rw [flush_other c _ a n hn] at hs
      exact hs
    | false => simpa [after_write] using hs
  cases h0 : file.mappings[n]? with
  | none =>
    rw [write_barrier_none_of_none w file a addr size n h0] at hs1
    cases hs1
  | some s0 =>
    rw [write_barrier_other w file a addr size W1 h1 n s0 hn h0] at hs1
    cases hs1
    exact ⟨s0, rfl, rfl⟩

theorem after_write_self (c : Cipher) (w : Nat) (file : SharedFileInfo) (a addr size : Nat)
    (flushed : Bool) (W1 : EncryptedFileMapping) (h1 : file.mappings[a]? = some W1) :
    ∃ s, (after_write c w file a addr size flushed).mappings[a]? = some s ∧
      s.m_up_to_date_pages = W1.m_up_to_date_pages ∧ s.memory = W1.memory ∧
      s.m_file_offset = W1.m_file_offset ∧ s.m_page_shift = W1.m_page_shift := by
  obtain ⟨wb1, _, _⟩ := write_barrier_self w file a addr size W1 h1
  cases flushed with
  | true =>
    simp only [after_write, if_true]
    exact ⟨_, flush_self c _ a _ wb1, rfl, rfl, rfl, rfl⟩
  | false =>
    simp only [after_write]
    exact ⟨_, wb1, rfl, rfl, rfl, rfl⟩

theorem after_write_get_other (c : Cipher) (w : Nat) (file : SharedFileInfo)
    (a addr size : Nat) (flushed : Bool) (W1 : EncryptedFileMapping)
    (h1 : file.mappings[a]? = some W1) (n : Nat) (hn : n ≠ a) (s0 : EncryptedFileMapping)
    (hs : file.mappings[n]? = some s0) :
    (after_write c w file a addr size flushed).mappings[n]? =
      some (notify_dirty (W1.file_page (first_idx w W1 addr))
        (W1.file_page (last_idx w W1 addr size)) s0) := by
  have hwb := write_barrier_other w file a addr size W1 h1 n s0 hn hs
  cases flushed with
  | true =>
    simp only [after_write, if_true]
    rw [flush_other c _ a n hn]
    exact hwb
  | false => simpa [after_write] using hwb

theorem notify_dirty_indices (w : Nat) (first_fp last_fp : Nat) (s : EncryptedFileMapping)
    (addr size : Nat) :
    first_idx w (notify_dirty first_fp last_fp s) addr = first_idx w s addr ∧
    last_idx w (notify_dirty first_fp last_fp s) addr size = last_idx w s addr size := by
  simp [first_idx, last_idx, first_accessed_page, last_accessed_page, notify_dirty]

/-- C6. Coherence between windows: `W1` and `W2` are two windows registered on
the same `SharedFileInfo`; `W1` holds fresh plaintext in the pages touched by
`[addr1, addr1 + size1)`, which map the same pages of the file as the pages of
`W2` touched by `[addr2, addr2 + size2)`. After `W1` calls `write_barrier` over
its range (and `flush`, or not), `W2`'s pages of the range are stale, its
`read_barrier` over its range returns, and every page of that range is then up
to date and holds the bytes `W1` holds for the same page of the file. -/
theorem coherence (c : Cipher) (w fuel : Nat) (file : SharedFileInfo) (a b : Nat)
    (W1 W2 : EncryptedFileMapping) (addr1 size1 addr2 size2 : Nat) (flushed : Bool)
    (lock : UniqueLock)
    (hab : a ≠ b) (h1 : file.mappings[a]? = some W1) (h2 : file.mappings[b]? = some W2)
    (hmem1 : W1.memory.length = W1.m_page_count)
    (hlast1 : last_idx w W1 addr1 size1 < W1.m_page_count)
    (hfresh1 : ∀ j : Nat, first_idx w W1 addr1 ≤ j → j ≤ last_idx w W1 addr1 size1 →
      W1.m_up_to_date_pages[j]? = some true)
    (hup2 : W2.m_up_to_date_pages.length = W2.m_page_count)
    (hmem2 : W2.memory.length = W2.m_page_count)
    (hcount2 : W2.m_page_count < 2 ^ w)
    (hlast2 : last_idx w W2 addr2 size2 < W2.m_page_count)
    (hfuel : last_idx w W2 addr2 size2 + 1 - first_idx w W2 addr2 ≤ fuel)
    (hsame_first : W2.file_page (first_idx w W2 addr2) = W1.file_page (first_idx w W1 addr1))
    (hsame_last : W2.file_page (last_idx w W2 addr2 size2)
      = W1.file_page (last_idx w W1 addr1 size1)) :
    ∃ W2s, (after_write c w file a addr1 size1 flushed).mappings[b]? = some W2s ∧
      W2s.memory = W2.memory ∧
      (∀ j : Nat, first_idx w W2 addr2 ≤ j → j ≤ last_idx w W2 addr2 size2 →
        W2s.m_up_to_date_pages[j]? = some false) ∧
      (read_barrier w (refresh_page c (after_write c w file a addr1 size1 flushed) b) fuel
        ⟨W2s, lock, []⟩ addr2 size2 none).status = Status.ok ∧
      ∀ j1 j2 : Nat, first_idx w W2 addr2 ≤ j2 → j2 ≤ last_idx w W2 addr2 size2 →
        W1.file_page j1 = W2.file_page j2 →
        (read_barrier w (refresh_page c (after_write c w file a addr1 size1 flushed) b) fuel
          ⟨W2s, lock, []⟩ addr2 size2 none).st.self.m_up_to_date_pages[j2]? = some true ∧
        (read_barrier w (refresh_page c (after_write c w file a addr1 size1 flushed) b) fuel
          ⟨W2s, lock, []⟩ addr2 size2 none).st.self.memory[j2]? = W1.memory[j1]? := by
  have hget := after_write_get_other c w file a addr1 size1 flushed W1 h1 b (Ne.symm hab) W2 h2
  obtain ⟨hf, hl⟩ := notify_dirty_indices w (W1.file_page (first_idx w W1 addr1))
    (W1.file_page (last_idx w W1 addr1 size1)) W2 addr2 size2
  have hstale : ∀ j : Nat, first_idx w W2 addr2 ≤ j → j ≤ last_idx w W2 addr2 size2 →
      (notify_dirty (W1.file_page (first_idx w W1 addr1))
        (W1.file_page (last_idx w W1 addr1 size1)) W2).m_up_to_date_pages[j]? = some false := by
    intro j hj1 hj2
    have hne := notify_dirty_get (W1.file_page (first_idx w W1 addr1))
      (W1.file_page (last_idx w W1 addr1 size1)) W2 j
      (by rw [← hsame_first]; simp only [EncryptedFileMapping.file_page]; omega)
      (by rw [← hsame_last]; simp only [EncryptedFileMapping.file_page]; omega)
    have hlen : j < (notify_dirty (W1.file_page (first_idx w W1 addr1))
        (W1.file_page (last_idx w W1 addr1 size1)) W2).m_up_to_date_pages.length := by
      simp only [notify_dirty, List.length_mapIdx]
      omega
    rw [List.getElem?_eq_getElem hlen] at hne ⊢
    cases hv : (notify_dirty (W1.file_page (first_idx w W1 addr1))
        (W1.file_page (last_idx w W1 addr1 size1)) W2).m_up_to_date_pages[j] with
    | false => rfl
    | true => rw [hv] at hne; exact absurd rfl hne
  refine ⟨_, hget, rfl, hstale, ?_⟩
  have key := read_barrier_fills w
    (refresh_page c (after_write c w file a addr1 size1 flushed) b) fuel
    ⟨notify_dirty (W1.file_page (first_idx w W1 addr1))
      (W1.file_page (last_idx w W1 addr1 size1)) W2, lock, []⟩ addr2 size2
    (fun j => W1.memory[W2.file_page j - (W1.m_file_offset >>> W1.m_page_shift)]?) ?_ ?_
    (by simp only [notify_dirty, List.length_mapIdx]; exact hup2) hmem2 hcount2
    (by rw [hl]; exact hlast2) (by rw [hl, hf]; exact hfuel)
  · rw [hf, hl] at key
    refine ⟨key.1, ?_⟩
    intro j1 j2 hj1 hj2 hpage
    obtain ⟨k1, k2⟩ := key.2 j2 hj1 hj2
    refine ⟨k1, ?_⟩
    rw [k2]
    show W1.memory[W2.file_page j2 - (W1.m_file_offset >>> W1.m_page_shift)]? = W1.memory[j1]?
    rw [← hpage]
    simp only [EncryptedFileMapping.file_page, Nat.add_sub_cancel_left]
  · intro i m g1 g2 _ hi1 hi2
    rw [hf] at hi1
    rw [hl] at hi2
    have hfp : m.file_page i = W2.file_page i := by
      simp only [EncryptedFileMapping.file_page, g1, g2, notify_dirty]
    have hlo : W1.file_page (first_idx w W1 addr1) ≤ W2.file_page i := by
      rw [← hsame_first]; simp only [EncryptedFileMapping.file_page]; omega
    have hhi : W2.file_page i ≤ W1.file_page (last_idx w W1 addr1 size1) := by
      rw [← hsame_last]; simp only [EncryptedFileMapping.file_page]; omega
    have hj1 : W2.file_page i - (W1.m_file_offset >>> W1.m_page_shift) < W1.memory.length := by
      simp only [EncryptedFileMapping.file_page] at hlo hhi ⊢
      omega
    refine ⟨W1.memory[W2.file_page i - (W1.m_file_offset >>> W1.m_page_shift)],
      List.getElem?_eq_getElem hj1, ?_⟩
    apply refresh_page_of_copy
    rw [hfp]
    obtain ⟨s, hs, hsup, hsmem, hsoff, hsshift⟩ :=
      after_write_self c w file a addr1 size1 flushed W1 h1
    refine sibling_copy_of_unique b (W2.file_page i) a _ hab _ 0 (Nat.zero_le _)
      ⟨s, by simpa using hs, ?_⟩ ?_
    · have hoff : s.m_file_offset >>> s.m_page_shift ≤ W2.file_page i := by
        rw [hsoff, hsshift]
        simp only [EncryptedFileMapping.file_page] at hlo ⊢
        omega
      have hfr := hfresh1 (W2.file_page i - (W1.m_file_offset >>> W1.m_page_shift))
        (by simp only [EncryptedFileMapping.file_page] at hlo ⊢; omega)
        (by simp only [EncryptedFileMapping.file_page] at hhi ⊢; omega)
      rw [hsoff, hsshift] at hoff
      simp only [up_to_date_page, hoff, if_true, hsoff, hsshift, hsup, hfr, hsmem]
      exact List.getElem?_eq_getElem hj1
    · intro n s2 hs2 hna hnb
      rw [Nat.zero_add] at hna hnb
      obtain ⟨s0, _, rfl⟩ := after_write_other c w file a addr1 size1 flushed W1 h1 n hna s2 hs2
      exact up_to_date_page_notified _ _ _ s0 hlo hhi
  · intro j hj1 hj2 hj
    rw [hf] at hj1
    rw [hl] at hj2
    have := hstale j hj1 hj2
    rw [this] at hj
    cases hj

/-! ## The concrete scenarios -/

theorem xor_cipher_correct : xor_cipher.Correct := by
  intro key iv b
  simp [xor_cipher, List.map_map, Function.comp_def, Nat.xor_cancel_right]

theorem round_trip_witness :
    xor_cipher.Correct ∧ one_block_file.mappings[0]? = some writer_window ∧
    writer_window.m_first_page = writer_window.m_addr >>> writer_window.m_page_shift ∧
    writer_window.m_page_count < 2 ^ 64 ∧
    writer_window.m_dirty_pages.length = writer_window.m_page_count ∧
    writer_window.memory.length = writer_window.m_page_count ∧
    (∀ p ∈ writer_window.memory, p.length = writer_window.m_blocks_per_page) ∧
    writer_window.file_page writer_window.m_page_count * writer_window.m_blocks_per_page
      ≤ one_block_file.fd.length ∧
    ([[]] : List (List Block)).length = writer_window.m_page_count ∧
    last_idx 64 writer_window 65536 4096 < writer_window.m_page_count ∧
    last_idx 64 writer_window 65536 4096 + 1 - first_idx 64 writer_window 65536 ≤ 1 ∧
    (read_barrier 64
      (refresh_page xor_cipher (reopen one_block_file.cryptor.key
        (sync xor_cipher (flush xor_cipher (write_barrier 64 one_block_file 0 65536 4096) 0)
          0).fd writer_window [[]]) 0)
      1 ⟨fresh_window writer_window [[]], ⟨false⟩, []⟩ 65536 4096 none).status = Status.ok ∧
    (read_barrier 64
      (refresh_page xor_cipher (reopen one_block_file.cryptor.key
        (sync xor_cipher (flush xor_cipher (write_barrier 64 one_block_file 0 65536 4096) 0)
          0).fd writer_window [[]]) 0)
      1 ⟨fresh_window writer_window [[]], ⟨false⟩, []⟩ 65536 4096 none).st.self.memory[0]?
      = some [List.replicate 4096 170] :=
  have hpages : ∀ p ∈ writer_window.memory, p.length = writer_window.m_blocks_per_page := by
    intro p hp
    simp only [writer_window, List.mem_singleton] at hp
    subst hp
    rfl
  have h := round_trip xor_cipher xor_cipher_correct 64 1 one_block_file 0 writer_window
    65536 4096 [[]] ⟨false⟩ rfl (by decide) (by decide) rfl rfl hpages (by decide) rfl
    (by decide) (by decide)
  ⟨xor_cipher_correct, rfl, by decide, by decide, rfl, rfl, hpages, by decide, rfl,
    by decide, by decide, h.2.1, (h.2.2 0 (by decide) (by decide)).2⟩

theorem coherence_witness :
    (0 : Nat) ≠ 1 ∧ shared_file.mappings[0]? = some writer_window ∧
    shared_file.mappings[1]? = some reader_window ∧
    writer_window.memory.length = writer_window.m_page_count ∧
    last_idx 64 writer_window 65536 4096 < writer_window.m_page_count ∧
    (∀ j : Nat, first_idx 64 writer_window 65536 ≤ j →
      j ≤ last_idx 64 writer_window 65536 4096 →
      writer_window.m_up_to_date_pages[j]? = some true) ∧
    reader_window.m_up_to_date_pages.length = reader_window.m_page_count ∧
    reader_window.memory.length = reader_window.m_page_count ∧
    reader_window.m_page_count < 2 ^ 64 ∧
    last_idx 64 reader_window 131072 4096 < reader_window.m_page_count ∧
    last_idx 64 reader_window 131072 4096 + 1 - first_idx 64 reader_window 131072 ≤ 1 ∧
    reader_window.file_page (first_idx 64 reader_window 131072)
      = writer_window.file_page (first_idx 64 writer_window 65536) ∧
    reader_window.file_page (last_idx 64 reader_window 131072 4096)
      = writer_window.file_page (last_idx 64 writer_window 65536 4096) ∧
    ∃ W2s, (after_write xor_cipher 64 shared_file 0 65536 4096 true).mappings[1]? = some W2s ∧
      W2s.memory[0]? = some [List.replicate 4096 0] ∧
      (read_barrier 64
        (refresh_page xor_cipher (after_write xor_cipher 64 shared_file 0 65536 4096 true) 1)
        1 ⟨W2s, ⟨false⟩, []⟩ 131072 4096 none).status = Status.ok ∧
      (read_barrier 64
        (refresh_page xor_cipher (after_write xor_cipher 64 shared_file 0 65536 4096 true) 1)
        1 ⟨W2s, ⟨false⟩, []⟩ 131072 4096 none).st.self.memory[0]?
        = some [List.replicate 4096 170] := by
  have hfresh : ∀ j : Nat, first_idx 64 writer_window 65536 ≤ j →
      j ≤ last_idx 64 writer_window 65536 4096 →
      writer_window.m_up_to_date_pages[j]? = some true := by
    intro j _ hj
    have hl : last_idx 64 writer_window 65536 4096 = 0 := by decide
    have hj0 : j = 0 := by omega
    subst hj0
    rfl
  obtain ⟨W2s, e1, e2, _, e4, e5⟩ := coherence xor_cipher 64 1 shared_file 0 1 writer_window
    reader_window 65536 4096 131072 4096 true ⟨false⟩ (by decide) rfl rfl rfl (by decide)
    hfresh rfl rfl (by decide) (by decide) (by decide) (by decide) (by decide)
  refine ⟨by decide, rfl, rfl, rfl, by decide, hfresh, rfl, rfl, by decide, by decide,
    by decide, by decide, by decide, W2s, e1, ?_, e4, ?_⟩
  · rw [e2]
    rfl
  · exact (e5 0 0 (by decide) (by decide) (by decide)).2

end realm.util
